import Mathlib

/-!
# Trajectory animation engine (OSRT/lab2/prog2.4.cpp and OSRT/lab2/prog2.5.cpp)

Shallow embedding of the two variants of the trajectory animation program:
the multi-thread program `prog2.5.cpp` (namespace `Prog25`) and the
multi-process program `prog2.4.cpp` (namespace `Prog24`).

Conventions of the embedding.

* C `float` values are elements of a linearly ordered field `K` with a floor
  function (`ℚ` for evaluation, `ℝ` for comparison with the true cosine and
  sine), with exact arithmetic. Where rounding decides a property (whether
  the reduction loops exit, which integer `MoveTo` receives) the functions are
  given a second time in binary32 arithmetic, with the suffix `_f32`: values
  are rationals and every operation is followed by `f32_round` (IEEE 754
  single precision, round to nearest, ties to even, each operation evaluated
  in single precision). A loop that need not exit there takes a bound `fuel`
  on the passes through its body and returns an `Option`.
* C `int` values are `Int`; the programs do no arithmetic on them.
* The float literal `6.283185307f` is the exact fraction `6283185307 / 10^9`.
* A `while` loop is a recursive function; the two argument reduction loops are
  defined by well-founded recursion, so their termination is part of the
  definition being accepted.
* `switch` statements are chains of `if … else if …` over the case labels, in
  the order of the source; character labels are written as their ASCII codes.
* Concurrent execution is an interleaving of scheduling steps on one state
  (sequential consistency). In `step` a step is one pass of the control loop or
  one loop test and body of a worker; in `fine_step` the passes of the control
  loop are split into their single stores to the shared data. Tearing of a
  single field and reordering by the compiler or the hardware are not
  modelled.
-/

/-- The conversion `(int)x` of a float to an int: truncation toward zero. -/
def to_int {K : Type} [LinearOrderedField K] [FloorRing K] (x : K) : Int :=
  if 0 ≤ x then ⌊x⌋ else ⌈x⌉

/-- Handles of the graphic objects the workers act on (the globals
`el1, el2, pix1, pix2, pix3, tri, moving_obj`). -/
inductive Handle where
  | el1 | el2 | pix1 | pix2 | pix3 | tri | moving_obj
  deriving DecidableEq, Repr

/-- A call to the drawing surface made by a worker. -/
inductive DrawCall where
  | SetColor (obj : Handle) (c : Int)
  | MoveTo (x y : Int) (obj : Handle)
  deriving DecidableEq, Repr

/-- The four trajectory kinds the specification names, with the integer code
the programs store in `trajectory_type`. -/
inductive TrajectoryKind where
  | Circle | Ellipse | Rose | Heart
  deriving DecidableEq, Repr

/-- Integer code of a trajectory kind (0 circle, 1 ellipse, 2 rose, 3 heart),
as in the comment on the field `trajectory_type`. -/
def TrajectoryKind.code : TrajectoryKind → Int
  | .Circle => 0
  | .Ellipse => 1
  | .Rose => 2
  | .Heart => 3

/-! ## prog2.5.cpp: the multi-thread program -/

namespace Prog25

/-- The struct `SharedData` of prog2.5.cpp (lines 10-16). -/
structure SharedData (K : Type) where
  a : K
  b : K
  speed : K
  trajectory_type : Int
  running : Int
  deriving DecidableEq, Repr

/-- The literal `6.283185307f`. -/
def twoPi {K : Type} [LinearOrderedField K] : K := 6283185307 / 1000000000

/-- First reduction loop, `while (x < 0) x += 6.283185307f;` (lines 24, 34). -/
def reduce_up {K : Type} [LinearOrderedField K] [FloorRing K] (x : K) : K :=
  if x < 0 then reduce_up (x + twoPi) else x
termination_by Int.toNat ⌈-x⌉
decreasing_by
  rename_i h
  have h1 : (1 : ℤ) ≤ ⌈-x⌉ := Int.one_le_ceil_iff.mpr (neg_pos.mpr h)
  have h2 : ⌈-(x + twoPi)⌉ ≤ ⌈-x⌉ - 1 := by
    rw [← Int.ceil_sub_one]
    apply Int.ceil_mono
    have : (1 : K) ≤ twoPi := by unfold twoPi; norm_num
    linarith
  omega

/-- Second reduction loop, `while (x >= 6.283185307f) x -= 6.283185307f;`
(lines 25, 35). -/
def reduce_down {K : Type} [LinearOrderedField K] [FloorRing K] (x : K) : K :=
  if x ≥ twoPi then reduce_down (x - twoPi) else x
termination_by Int.toNat ⌊x⌋
decreasing_by
  rename_i h
  have hc : (1 : K) ≤ twoPi := by unfold twoPi; norm_num
  have h1 : (1 : ℤ) ≤ ⌊x⌋ := Int.le_floor.mpr (by push_cast; linarith)
  have h2 : ⌊x - twoPi⌋ ≤ ⌊x⌋ - 1 := by
    rw [← Int.floor_sub_one]
    apply Int.floor_mono
    linarith
  omega

/-- The function `my_cos` of prog2.5.cpp (lines 23-31). -/
def my_cos {K : Type} [LinearOrderedField K] [FloorRing K] (x : K) : K :=
  let x := reduce_down (reduce_up x)
  let x2 := x * x
  let x4 := x2 * x2
  let x6 := x4 * x2
  1 - x2 / 2 + x4 / 24 - x6 / 720

/-- The function `my_sin` of prog2.5.cpp (lines 33-42). -/
def my_sin {K : Type} [LinearOrderedField K] [FloorRing K] (x : K) : K :=
  let x := reduce_down (reduce_up x)
  let x2 := x * x
  let x3 := x2 * x
  let x5 := x3 * x2
  let x7 := x5 * x2
  x - x3 / 6 + x5 / 120 - x7 / 5040

/-- The coordinates `(x, y)` computed by the `switch` of `move_trajectory`
(lines 87-111), before the conversion to int. -/
def trajectory_xy {K : Type} [LinearOrderedField K] [FloorRing K]
    (shared : SharedData K) (phi : K) : K × K :=
  if shared.trajectory_type = 0 then
    (shared.a * my_cos phi + 300, shared.a * my_sin phi + 200)
  else if shared.trajectory_type = 1 then
    (shared.a * my_cos phi + 300, shared.b * my_sin phi + 200)
  else if shared.trajectory_type = 2 then
    let rho := shared.a * my_cos (3 * phi) + shared.b
    (rho * my_cos phi + 300, rho * my_sin phi + 200)
  else if shared.trajectory_type = 3 then
    let x := 16 * my_sin phi * my_sin phi * my_sin phi
    let y := 13 * my_cos phi - 5 * my_cos (2 * phi) - 2 * my_cos (3 * phi) - my_cos (4 * phi)
    (x * (shared.a / 16) + 300, -y * (shared.b / 13) + 200)
  else
    (shared.a * my_cos phi + 300, shared.a * my_sin phi + 200)

/-- The phase update of `move_trajectory` (lines 114-118):
`phi += shared.speed; if (phi > 6.283185307f) phi = 0.0f;`. -/
def next_phi {K : Type} [LinearOrderedField K] (shared : SharedData K) (phi : K) : K :=
  let phi := phi + shared.speed
  if phi > twoPi then 0 else phi

/-- The arguments `((int)x, (int)y)` of the call `MoveTo` (line 113). -/
def move_target {K : Type} [LinearOrderedField K] [FloorRing K]
    (shared : SharedData K) (phi : K) : Int × Int :=
  (to_int (trajectory_xy shared phi).1, to_int (trajectory_xy shared phi).2)

/-- One iteration of the loop body of `move_trajectory` (lines 84-120): the
drawing call it makes and the value of `phi` it leaves. -/
def move_trajectory_body {K : Type} [LinearOrderedField K] [FloorRing K]
    (shared : SharedData K) (phi : K) : DrawCall × K :=
  (DrawCall.MoveTo (move_target shared phi).1 (move_target shared phi).2 Handle.moving_obj,
    next_phi shared phi)

/-- The phase after a sequence of ticks of `move_trajectory`, the shared
configuration read at each tick given as a list; `phi` starts at `0.0f`
(line 82). -/
def phi_after {K : Type} [LinearOrderedField K] (ticks : List (SharedData K)) : K :=
  ticks.foldl (fun phi shared => next_phi shared phi) 0

/-- The initialisation of the shared data in `main` (lines 132-136). -/
def init_shared {K : Type} [LinearOrderedField K] : SharedData K :=
  { a := 60, b := 40, speed := 2 / 100, trajectory_type := 0, running := 1 }

/-- The `switch (key)` of the control loop of `main` (lines 174-211). The case
labels are `'w'` 119, `'W'` 87, `'s'` 115, `'S'` 83, `'a'` 97, `'A'` 65,
`'d'` 100, `'D'` 68, `'+'` 43, `'-'` 45, `'1'` 49, `'2'` 50, `'3'` 51,
`'4'` 52; there is no `default`. -/
def handle_key {K : Type} [LinearOrderedField K] (shared : SharedData K) (key : Int) :
    SharedData K :=
  if key = 119 ∨ key = 87 then
    let shared := { shared with a := shared.a + 5 }
    if shared.a > 100 then { shared with a := 100 } else shared
  else if key = 115 ∨ key = 83 then
    let shared := { shared with a := shared.a - 5 }
    if shared.a < 20 then { shared with a := 20 } else shared
  else if key = 97 ∨ key = 65 then
    let shared := { shared with b := shared.b + 5 }
    if shared.b > 80 then { shared with b := 80 } else shared
  else if key = 100 ∨ key = 68 then
    let shared := { shared with b := shared.b - 5 }
    if shared.b < 10 then { shared with b := 10 } else shared
  else if key = 43 then
    let shared := { shared with speed := shared.speed + 5 / 1000 }
    if shared.speed > 1 / 10 then { shared with speed := 1 / 10 } else shared
  else if key = 45 then
    let shared := { shared with speed := shared.speed - 5 / 1000 }
    if shared.speed < 5 / 1000 then { shared with speed := 5 / 1000 } else shared
  else if key = 49 then { shared with trajectory_type := 0 }
  else if key = 50 then { shared with trajectory_type := 1 }
  else if key = 51 then { shared with trajectory_type := 2 }
  else if key = 52 then { shared with trajectory_type := 3 }
  else shared

/-- The control loop of `main` (lines 171-212),
`while (key != 27 && shared.running) { key = InputChar(); switch (key) … }`,
run on the list of the keys `InputChar` returns. The result is the value of
`key`, the shared data and the keys not yet read when the loop exits, and
`none` when the loop is still waiting for a key after the whole list. -/
def control_loop {K : Type} [LinearOrderedField K] :
    List Int → Int → SharedData K → Option (Int × SharedData K × List Int)
  | [], key, shared =>
    if key ≠ 27 ∧ shared.running ≠ 0 then none else some (key, shared, [])
  | k :: ks, key, shared =>
    if key ≠ 27 ∧ shared.running ≠ 0 then control_loop ks k (handle_key shared k)
    else some (key, shared, k :: ks)

/-- The assignment `shared.running = 0;` after the control loop (line 215). -/
def stop_running {K : Type} (shared : SharedData K) : SharedData K :=
  { shared with running := 0 }

/-- The shared data `main` leaves after line 215, for the keys read; `none`
when the control loop does not exit on these keys. -/
def main_shared {K : Type} [LinearOrderedField K] (keys : List Int) : Option (SharedData K) :=
  (control_loop keys 0 init_shared).map (fun r => stop_running r.2.1)

/-- Where the main thread stands after the four `pthread_create` calls: in the
control loop (lines 171-212), at the `pthread_join` calls after
`shared.running = 0` (lines 218-221), or past them (lines 223-225). -/
inductive MainPc where
  | control | joining | closed
  deriving DecidableEq, Repr

/-- State of the running program after the threads are created (line 168):
the shared data, the local `key` of `main`, the position of the main thread,
the local `phi` of `move_trajectory`, for each worker thread whether it has
not yet returned, and the drawing calls made so far, oldest first. -/
structure State (K : Type) where
  shared : SharedData K
  key : Int
  pc : MainPc
  phi : K
  ellipses_live : Bool
  pixels_live : Bool
  triangle_live : Bool
  trajectory_live : Bool
  calls : List DrawCall

/-- One scheduling step: the main thread runs one pass of its current
statement (reading `input` if it calls `InputChar`), or one worker thread runs
one test of its loop condition followed by its loop body or its return; `c` is
the colour `RGB(rand() % 255, rand() % 255, rand() % 255)` the worker draws. -/
inductive Event where
  | main (input : Int)
  | ellipses (c : Int)
  | pixels (c : Int)
  | triangle (c : Int)
  | trajectory
  deriving DecidableEq, Repr

/-- The state once `main` has initialised the shared data and created the four
threads (lines 132-168). -/
def init_state {K : Type} [LinearOrderedField K] : State K :=
  { shared := init_shared, key := 0, pc := MainPc.control, phi := 0,
    ellipses_live := true, pixels_live := true, triangle_live := true,
    trajectory_live := true, calls := [] }

/-- The effect of one scheduling step on the state: `main` (lines 171-221),
`animate_ellipses` (47-53), `animate_pixels` (59-66), `animate_triangle`
(72-77) and `move_trajectory` (83-122). -/
def step {K : Type} [LinearOrderedField K] [FloorRing K] (st : State K) : Event → State K
  | Event.main input =>
    match st.pc with
    | MainPc.control =>
      if st.key ≠ 27 ∧ st.shared.running ≠ 0 then
        { st with key := input, shared := handle_key st.shared input }
      else
        { st with shared := stop_running st.shared, pc := MainPc.joining }
    | MainPc.joining =>
      if st.ellipses_live ∨ st.pixels_live ∨ st.triangle_live ∨ st.trajectory_live then st
      else { st with pc := MainPc.closed }
    | MainPc.closed => st
  | Event.ellipses c =>
    if st.ellipses_live then
      if st.shared.running ≠ 0 then
        { st with calls := st.calls ++
            [DrawCall.SetColor Handle.el1 c, DrawCall.SetColor Handle.el2 c] }
      else { st with ellipses_live := false }
    else st
  | Event.pixels c =>
    if st.pixels_live then
      if st.shared.running ≠ 0 then
        { st with calls := st.calls ++
            [DrawCall.SetColor Handle.pix1 c, DrawCall.SetColor Handle.pix2 c,
              DrawCall.SetColor Handle.pix3 c] }
      else { st with pixels_live := false }
    else st
  | Event.triangle c =>
    if st.triangle_live then
      if st.shared.running ≠ 0 then
        { st with calls := st.calls ++ [DrawCall.SetColor Handle.tri c] }
      else { st with triangle_live := false }
    else st
  | Event.trajectory =>
    if st.trajectory_live then
      if st.shared.running ≠ 0 then
        { st with calls := st.calls ++ [(move_trajectory_body st.shared st.phi).1],
                  phi := (move_trajectory_body st.shared st.phi).2 }
      else { st with trajectory_live := false }
    else st

/-- The state reached from `st` by a sequence of scheduling steps. -/
def run {K : Type} [LinearOrderedField K] [FloorRing K] (st : State K) (evs : List Event) :
    State K :=
  evs.foldl step st

/-- The key table of the specification, written from its words: `w`/`W` set
`radius_a` to `min (radius_a + 5) 100`, `s`/`S` to `max (radius_a - 5) 20`,
`a`/`A` set `shape_b` to `min (shape_b + 5) 80`, `d`/`D` to
`max (shape_b - 5) 10`, `+` sets `angular_speed` to
`min (angular_speed + 0.005) 0.1`, `-` to `max (angular_speed - 0.005) 0.005`,
`1`..`4` select Circle, Ellipse, Rose, Heart, and every other key changes
nothing. Each row changes the named field only. -/
def spec_key_table {K : Type} [LinearOrderedField K] (cfg : SharedData K) (key : Int) :
    SharedData K :=
  if key = Char.toNat 'w' ∨ key = Char.toNat 'W' then { cfg with a := min (cfg.a + 5) 100 }
  else if key = Char.toNat 's' ∨ key = Char.toNat 'S' then { cfg with a := max (cfg.a - 5) 20 }
  else if key = Char.toNat 'a' ∨ key = Char.toNat 'A' then { cfg with b := min (cfg.b + 5) 80 }
  else if key = Char.toNat 'd' ∨ key = Char.toNat 'D' then { cfg with b := max (cfg.b - 5) 10 }
  else if key = Char.toNat '+' then { cfg with speed := min (cfg.speed + 5 / 1000) (1 / 10) }
  else if key = Char.toNat '-' then { cfg with speed := max (cfg.speed - 5 / 1000) (5 / 1000) }
  else if key = Char.toNat '1' then { cfg with trajectory_type := TrajectoryKind.Circle.code }
  else if key = Char.toNat '2' then { cfg with trajectory_type := TrajectoryKind.Ellipse.code }
  else if key = Char.toNat '3' then { cfg with trajectory_type := TrajectoryKind.Rose.code }
  else if key = Char.toNat '4' then { cfg with trajectory_type := TrajectoryKind.Heart.code }
  else cfg

/-- The range invariant of the configuration: `20 ≤ a ≤ 100`, `10 ≤ b ≤ 80`,
`0.005 ≤ speed ≤ 0.1` and `trajectory_type` is one of `0, 1, 2, 3`. -/
def in_range {K : Type} [LinearOrderedField K] (cfg : SharedData K) : Prop :=
  (20 ≤ cfg.a ∧ cfg.a ≤ 100) ∧ (10 ≤ cfg.b ∧ cfg.b ≤ 80) ∧
    (5 / 1000 ≤ cfg.speed ∧ cfg.speed ≤ 1 / 10) ∧
    (cfg.trajectory_type = 0 ∨ cfg.trajectory_type = 1 ∨ cfg.trajectory_type = 2 ∨
      cfg.trajectory_type = 3)

/-- The range invariant is decidable. -/
instance in_range_decidable {K : Type} [LinearOrderedField K] (cfg : SharedData K) :
    Decidable (in_range cfg) := by
  unfold in_range
  infer_instance

end Prog25

/-! ## prog2.4.cpp: the multi-process program -/

namespace Prog24

/-- The struct `SharedData` of prog2.4.cpp (lines 13-18), kept in the shared
memory mapping. -/
structure SharedData (K : Type) where
  a : K
  b : K
  speed : K
  trajectory_type : Int
  deriving DecidableEq, Repr

/-- The literal `6.283185307f`. -/
def twoPi {K : Type} [LinearOrderedField K] : K := 6283185307 / 1000000000

/-- First reduction loop, `while (x < 0) x += 6.283185307f;` (lines 22, 32). -/
def reduce_up {K : Type} [LinearOrderedField K] [FloorRing K] (x : K) : K :=
  if x < 0 then reduce_up (x + twoPi) else x
termination_by Int.toNat ⌈-x⌉
decreasing_by
  rename_i h
  have h1 : (1 : ℤ) ≤ ⌈-x⌉ := Int.one_le_ceil_iff.mpr (neg_pos.mpr h)
  have h2 : ⌈-(x + twoPi)⌉ ≤ ⌈-x⌉ - 1 := by
    rw [← Int.ceil_sub_one]
    apply Int.ceil_mono
    have : (1 : K) ≤ twoPi := by unfold twoPi; norm_num
    linarith
  omega

/-- Second reduction loop, `while (x >= 6.283185307f) x -= 6.283185307f;`
(lines 23, 33). -/
def reduce_down {K : Type} [LinearOrderedField K] [FloorRing K] (x : K) : K :=
  if x ≥ twoPi then reduce_down (x - twoPi) else x
termination_by Int.toNat ⌊x⌋
decreasing_by
  rename_i h
  have hc : (1 : K) ≤ twoPi := by unfold twoPi; norm_num
  have h1 : (1 : ℤ) ≤ ⌊x⌋ := Int.le_floor.mpr (by push_cast; linarith)
  have h2 : ⌊x - twoPi⌋ ≤ ⌊x⌋ - 1 := by
    rw [← Int.floor_sub_one]
    apply Int.floor_mono
    linarith
  omega

/-- The function `my_cos` of prog2.4.cpp (lines 21-29). -/
def my_cos {K : Type} [LinearOrderedField K] [FloorRing K] (x : K) : K :=
  let x := reduce_down (reduce_up x)
  let x2 := x * x
  let x4 := x2 * x2
  let x6 := x4 * x2
  1 - x2 / 2 + x4 / 24 - x6 / 720

/-- The function `my_sin` of prog2.4.cpp (lines 31-40). -/
def my_sin {K : Type} [LinearOrderedField K] [FloorRing K] (x : K) : K :=
  let x := reduce_down (reduce_up x)
  let x2 := x * x
  let x3 := x2 * x
  let x5 := x3 * x2
  let x7 := x5 * x2
  x - x3 / 6 + x5 / 120 - x7 / 5040

/-- The coordinates `(x, y)` computed by the `switch` of the trajectory
process (lines 127-151), before the conversion to int. -/
def trajectory_xy {K : Type} [LinearOrderedField K] [FloorRing K]
    (shared : SharedData K) (phi : K) : K × K :=
  if shared.trajectory_type = 0 then
    (shared.a * my_cos phi + 300, shared.a * my_sin phi + 200)
  else if shared.trajectory_type = 1 then
    (shared.a * my_cos phi + 300, shared.b * my_sin phi + 200)
  else if shared.trajectory_type = 2 then
    let rho := shared.a * my_cos (3 * phi) + shared.b
    (rho * my_cos phi + 300, rho * my_sin phi + 200)
  else if shared.trajectory_type = 3 then
    let x := 16 * my_sin phi * my_sin phi * my_sin phi
    let y := 13 * my_cos phi - 5 * my_cos (2 * phi) - 2 * my_cos (3 * phi) - my_cos (4 * phi)
    (x * (shared.a / 16) + 300, -y * (shared.b / 13) + 200)
  else
    (shared.a * my_cos phi + 300, shared.a * my_sin phi + 200)

/-- The phase update of the trajectory process (lines 154-158):
`phi += shared->speed; if (phi > 6.283185307f) phi = 0.0f;`. -/
def next_phi {K : Type} [LinearOrderedField K] (shared : SharedData K) (phi : K) : K :=
  let phi := phi + shared.speed
  if phi > twoPi then 0 else phi

/-- The arguments `((int)x, (int)y)` of the call `MoveTo` (line 153). -/
def move_target {K : Type} [LinearOrderedField K] [FloorRing K]
    (shared : SharedData K) (phi : K) : Int × Int :=
  (to_int (trajectory_xy shared phi).1, to_int (trajectory_xy shared phi).2)

/-- One iteration of the `while(1)` body of the trajectory process (lines
124-160): the drawing call it makes and the value of `phi` it leaves. -/
def move_trajectory_body {K : Type} [LinearOrderedField K] [FloorRing K]
    (shared : SharedData K) (phi : K) : DrawCall × K :=
  (DrawCall.MoveTo (move_target shared phi).1 (move_target shared phi).2 Handle.moving_obj,
    next_phi shared phi)

/-- The phase after a sequence of ticks of the trajectory process, the shared
configuration read at each tick given as a list; `phi` starts at `0.0f`
(line 47). -/
def phi_after {K : Type} [LinearOrderedField K] (ticks : List (SharedData K)) : K :=
  ticks.foldl (fun phi shared => next_phi shared phi) 0

/-- The initialisation of the shared memory in `main` (lines 55-58). -/
def init_shared {K : Type} [LinearOrderedField K] : SharedData K :=
  { a := 60, b := 40, speed := 2 / 100, trajectory_type := 0 }

/-- The `switch (key)` of the control loop of `main` (lines 168-205). The case
labels are `'w'` 119, `'W'` 87, `'s'` 115, `'S'` 83, `'a'` 97, `'A'` 65,
`'d'` 100, `'D'` 68, `'+'` 43, `'-'` 45, `'1'` 49, `'2'` 50, `'3'` 51,
`'4'` 52; there is no `default`. -/
def handle_key {K : Type} [LinearOrderedField K] (shared : SharedData K) (key : Int) :
    SharedData K :=
  if key = 119 ∨ key = 87 then
    let shared := { shared with a := shared.a + 5 }
    if shared.a > 100 then { shared with a := 100 } else shared
  else if key = 115 ∨ key = 83 then
    let shared := { shared with a := shared.a - 5 }
    if shared.a < 20 then { shared with a := 20 } else shared
  else if key = 97 ∨ key = 65 then
    let shared := { shared with b := shared.b + 5 }
    if shared.b > 80 then { shared with b := 80 } else shared
  else if key = 100 ∨ key = 68 then
    let shared := { shared with b := shared.b - 5 }
    if shared.b < 10 then { shared with b := 10 } else shared
  else if key = 43 then
    let shared := { shared with speed := shared.speed + 5 / 1000 }
    if shared.speed > 1 / 10 then { shared with speed := 1 / 10 } else shared
  else if key = 45 then
    let shared := { shared with speed := shared.speed - 5 / 1000 }
    if shared.speed < 5 / 1000 then { shared with speed := 5 / 1000 } else shared
  else if key = 49 then { shared with trajectory_type := 0 }
  else if key = 50 then { shared with trajectory_type := 1 }
  else if key = 51 then { shared with trajectory_type := 2 }
  else if key = 52 then { shared with trajectory_type := 3 }
  else shared

/-- The control loop of `main` (lines 164-206),
`while (key != 27) { key = InputChar(); … switch (key) … }`, run on the list
of the keys `InputChar` returns. The result is the value of `key`, the shared
data and the keys not yet read when the loop exits, and `none` when the loop
is still waiting for a key after the whole list. -/
def control_loop {K : Type} [LinearOrderedField K] :
    List Int → Int → SharedData K → Option (Int × SharedData K × List Int)
  | [], key, shared =>
    if key ≠ 27 then none else some (key, shared, [])
  | k :: ks, key, shared =>
    if key ≠ 27 then control_loop ks k (handle_key shared k)
    else some (key, shared, k :: ks)

/-- The range invariant of the configuration: `20 ≤ a ≤ 100`, `10 ≤ b ≤ 80`,
`0.005 ≤ speed ≤ 0.1` and `trajectory_type` is one of `0, 1, 2, 3`. -/
def in_range {K : Type} [LinearOrderedField K] (cfg : SharedData K) : Prop :=
  (20 ≤ cfg.a ∧ cfg.a ≤ 100) ∧ (10 ≤ cfg.b ∧ cfg.b ≤ 80) ∧
    (5 / 1000 ≤ cfg.speed ∧ cfg.speed ≤ 1 / 10) ∧
    (cfg.trajectory_type = 0 ∨ cfg.trajectory_type = 1 ∨ cfg.trajectory_type = 2 ∨
      cfg.trajectory_type = 3)

/-- The range invariant is decidable. -/
instance in_range_decidable {K : Type} [LinearOrderedField K] (cfg : SharedData K) :
    Decidable (in_range cfg) := by
  unfold in_range
  infer_instance

end Prog24

/-- The four configuration fields of the thread program's shared data, as the
shared data of the process program (which has no `running` field). -/
def Prog25.SharedData.config {K : Type} (s : Prog25.SharedData K) : Prog24.SharedData K :=
  { a := s.a, b := s.b, speed := s.speed, trajectory_type := s.trajectory_type }

/-! ## Workers, the process system and the single stores of the control loop -/

/-- The four worker routines: `animate_ellipses`, `animate_pixels`,
`animate_triangle` and `move_trajectory` in prog2.5.cpp, the four child
processes `proc1` .. `proc4` in prog2.4.cpp. -/
inductive Worker where
  | ellipses | pixels | triangle | trajectory
  deriving DecidableEq, Repr

/-- The graphic object a drawing call acts on. -/
def DrawCall.obj : DrawCall → Handle
  | DrawCall.SetColor obj _ => obj
  | DrawCall.MoveTo _ _ obj => obj

/-- The worker whose loop body acts on a handle: `el1`, `el2` are recoloured by
the ellipses worker, `pix1`, `pix2`, `pix3` by the pixels worker, `tri` by the
triangle worker, and `moving_obj` is moved by the trajectory worker. -/
def Handle.owner : Handle → Worker
  | Handle.el1 => Worker.ellipses
  | Handle.el2 => Worker.ellipses
  | Handle.pix1 => Worker.pixels
  | Handle.pix2 => Worker.pixels
  | Handle.pix3 => Worker.pixels
  | Handle.tri => Worker.triangle
  | Handle.moving_obj => Worker.trajectory

/-- The drawing calls of a log that act on the handles of worker `w`. -/
def calls_of (w : Worker) (calls : List DrawCall) : List DrawCall :=
  calls.filter (fun c => decide (c.obj.owner = w))

namespace Prog25

/-- Whether worker thread `w` has not yet returned. -/
def State.live {K : Type} (st : State K) : Worker → Bool
  | Worker.ellipses => st.ellipses_live
  | Worker.pixels => st.pixels_live
  | Worker.triangle => st.triangle_live
  | Worker.trajectory => st.trajectory_live

/-- The worker thread that runs in a scheduling step, `none` for the main
thread. -/
def Event.worker : Event → Option Worker
  | Event.main _ => none
  | Event.ellipses _ => some Worker.ellipses
  | Event.pixels _ => some Worker.pixels
  | Event.triangle _ => some Worker.triangle
  | Event.trajectory => some Worker.trajectory

/-- Where the main thread stands inside one pass of the control loop, at the
granularity of single stores to the shared data: `read` when no `case` is
half done (at the loop test and `key = InputChar()`), otherwise after the
store that updates a field and before the `if` that clamps it (between lines
176 and 177, 180 and 181, 184 and 185, 188 and 189, 192 and 193, 196 and
197). -/
inductive WritePc where
  | read | clamp_a_max | clamp_a_min | clamp_b_max | clamp_b_min
  | clamp_speed_max | clamp_speed_min
  deriving DecidableEq, Repr

/-- The first statement of the `case` the key selects (lines 176, 180, 184,
188, 192, 196, 200, 203, 206, 209): the shared data after this one store, and
where the main thread stands then. -/
def key_store {K : Type} [LinearOrderedField K] (shared : SharedData K) (key : Int) :
    SharedData K × WritePc :=
  if key = 119 ∨ key = 87 then ({ shared with a := shared.a + 5 }, WritePc.clamp_a_max)
  else if key = 115 ∨ key = 83 then ({ shared with a := shared.a - 5 }, WritePc.clamp_a_min)
  else if key = 97 ∨ key = 65 then ({ shared with b := shared.b + 5 }, WritePc.clamp_b_max)
  else if key = 100 ∨ key = 68 then ({ shared with b := shared.b - 5 }, WritePc.clamp_b_min)
  else if key = 43 then
    ({ shared with speed := shared.speed + 5 / 1000 }, WritePc.clamp_speed_max)
  else if key = 45 then
    ({ shared with speed := shared.speed - 5 / 1000 }, WritePc.clamp_speed_min)
  else if key = 49 then ({ shared with trajectory_type := 0 }, WritePc.read)
  else if key = 50 then ({ shared with trajectory_type := 1 }, WritePc.read)
  else if key = 51 then ({ shared with trajectory_type := 2 }, WritePc.read)
  else if key = 52 then ({ shared with trajectory_type := 3 }, WritePc.read)
  else (shared, WritePc.read)

/-- The second statement of a clamping `case` (lines 177, 181, 185, 189, 193,
197): the `if` that stores the bound when the field has passed it. -/
def clamp_store {K : Type} [LinearOrderedField K] (shared : SharedData K) :
    WritePc → SharedData K
  | WritePc.read => shared
  | WritePc.clamp_a_max => if shared.a > 100 then { shared with a := 100 } else shared
  | WritePc.clamp_a_min => if shared.a < 20 then { shared with a := 20 } else shared
  | WritePc.clamp_b_max => if shared.b > 80 then { shared with b := 80 } else shared
  | WritePc.clamp_b_min => if shared.b < 10 then { shared with b := 10 } else shared
  | WritePc.clamp_speed_max =>
    if shared.speed > 1 / 10 then { shared with speed := 1 / 10 } else shared
  | WritePc.clamp_speed_min =>
    if shared.speed < 5 / 1000 then { shared with speed := 5 / 1000 } else shared

/-- State of the running thread program at the granularity of single stores of
the main thread: the state of the program and the position of the main thread
inside the current `case`. -/
structure FineState (K : Type) where
  st : State K
  wpc : WritePc

/-- The state once `main` has initialised the shared data and created the four
threads, no `case` half done. -/
def fine_init {K : Type} [LinearOrderedField K] : FineState K :=
  { st := init_state, wpc := WritePc.read }

/-- One scheduling step at the granularity of single stores of the main
thread. A worker thread runs one iteration as in `step`, reading the shared
data as it is at this instant. The main thread, when a `case` is half done,
runs its clamping `if`; otherwise, in the control loop with the loop condition
true, it reads the key and runs the first statement of the selected `case`;
otherwise it steps as in `step`. -/
def fine_step {K : Type} [LinearOrderedField K] [FloorRing K] (fs : FineState K) :
    Event → FineState K
  | Event.main input =>
    match fs.wpc with
    | WritePc.read =>
      if fs.st.pc = MainPc.control ∧ fs.st.key ≠ 27 ∧ fs.st.shared.running ≠ 0 then
        { st := { fs.st with key := input, shared := (key_store fs.st.shared input).1 },
          wpc := (key_store fs.st.shared input).2 }
      else { fs with st := step fs.st (Event.main input) }
    | wpc => { st := { fs.st with shared := clamp_store fs.st.shared wpc }, wpc := WritePc.read }
  | ev => { fs with st := step fs.st ev }

/-- The state reached by a sequence of scheduling steps at the granularity of
single stores. -/
def fine_run {K : Type} [LinearOrderedField K] [FloorRing K] (fs : FineState K)
    (evs : List Event) : FineState K :=
  evs.foldl fine_step fs

/-- The clamp ranges widened by one increment: `15 ≤ a ≤ 105`, `5 ≤ b ≤ 85`,
`0 ≤ speed ≤ 0.105`, and `trajectory_type` is one of `0, 1, 2, 3`. -/
def wide_range {K : Type} [LinearOrderedField K] (cfg : SharedData K) : Prop :=
  (15 ≤ cfg.a ∧ cfg.a ≤ 105) ∧ (5 ≤ cfg.b ∧ cfg.b ≤ 85) ∧
    (0 ≤ cfg.speed ∧ cfg.speed ≤ 105 / 1000) ∧
    (cfg.trajectory_type = 0 ∨ cfg.trajectory_type = 1 ∨ cfg.trajectory_type = 2 ∨
      cfg.trajectory_type = 3)

/-- The widened range is decidable. -/
instance wide_range_decidable {K : Type} [LinearOrderedField K] (cfg : SharedData K) :
    Decidable (wide_range cfg) := by
  unfold wide_range
  infer_instance

end Prog25

namespace Prog24

/-- Where the parent process stands after the four `fork` calls: in the control
loop (lines 164-206), before `kill(proc2, SIGTERM)`, `kill(proc3, SIGTERM)`,
`kill(proc4, SIGTERM)` (lines 210-212), at the `waitpid` calls (lines 213-216),
or past them (lines 218-221). The statement `kill(proc1, SIGTERM)` (line 209)
runs in the step that leaves the control loop. -/
inductive MainPc where
  | control | kill_pixels | kill_triangle | kill_trajectory | reaping | closed
  deriving DecidableEq, Repr

/-- State of the running program after the fourth `fork` (line 121): the
shared memory, the local `key` of the parent, the position of the parent, the
copy of `phi` of the trajectory process, for each child process whether it has
not yet been terminated, and the drawing calls made from then on, oldest
first. -/
structure State (K : Type) where
  shared : SharedData K
  key : Int
  pc : MainPc
  phi : K
  ellipses_live : Bool
  pixels_live : Bool
  triangle_live : Bool
  trajectory_live : Bool
  calls : List DrawCall

/-- One scheduling step: the parent runs one pass of its current statement
(reading `input` if it calls `InputChar`), or one child process runs one pass
of its `while(1)` body; `c` is the colour
`RGB(rand() % 255, rand() % 255, rand() % 255)` the child draws. -/
inductive Event where
  | main (input : Int)
  | ellipses (c : Int)
  | pixels (c : Int)
  | triangle (c : Int)
  | trajectory
  deriving DecidableEq, Repr

/-- The state once the parent has initialised the shared memory and forked the
four children (lines 55-121). -/
def init_state {K : Type} [LinearOrderedField K] : State K :=
  { shared := init_shared, key := 0, pc := MainPc.control, phi := 0,
    ellipses_live := true, pixels_live := true, triangle_live := true,
    trajectory_live := true, calls := [] }

/-- The effect of one scheduling step on the state: the parent (lines
164-216) and the `while(1)` bodies of the children (lines 69-74, 83-89,
97-101, 123-161). A child has no loop condition to test; `kill(…, SIGTERM)`
terminates the child it is sent to (the children install no handler). -/
def step {K : Type} [LinearOrderedField K] [FloorRing K] (st : State K) : Event → State K
  | Event.main input =>
    match st.pc with
    | MainPc.control =>
      if st.key ≠ 27 then
        { st with key := input, shared := handle_key st.shared input }
      else
        { st with ellipses_live := false, pc := MainPc.kill_pixels }
    | MainPc.kill_pixels => { st with pixels_live := false, pc := MainPc.kill_triangle }
    | MainPc.kill_triangle => { st with triangle_live := false, pc := MainPc.kill_trajectory }
    | MainPc.kill_trajectory => { st with trajectory_live := false, pc := MainPc.reaping }
    | MainPc.reaping =>
      if st.ellipses_live ∨ st.pixels_live ∨ st.triangle_live ∨ st.trajectory_live then st
      else { st with pc := MainPc.closed }
    | MainPc.closed => st
  | Event.ellipses c =>
    if st.ellipses_live then
      { st with calls := st.calls ++
          [DrawCall.SetColor Handle.el1 c, DrawCall.SetColor Handle.el2 c] }
    else st
  | Event.pixels c =>
    if st.pixels_live then
      { st with calls := st.calls ++
          [DrawCall.SetColor Handle.pix1 c, DrawCall.SetColor Handle.pix2 c,
            DrawCall.SetColor Handle.pix3 c] }
    else st
  | Event.triangle c =>
    if st.triangle_live then
      { st with calls := st.calls ++ [DrawCall.SetColor Handle.tri c] }
    else st
  | Event.trajectory =>
    if st.trajectory_live then
      { st with calls := st.calls ++ [(move_trajectory_body st.shared st.phi).1],
                phi := (move_trajectory_body st.shared st.phi).2 }
    else st

/-- The state reached from `st` by a sequence of scheduling steps. -/
def run {K : Type} [LinearOrderedField K] [FloorRing K] (st : State K) (evs : List Event) :
    State K :=
  evs.foldl step st

/-- Whether child process `w` has not yet been terminated. -/
def State.live {K : Type} (st : State K) : Worker → Bool
  | Worker.ellipses => st.ellipses_live
  | Worker.pixels => st.pixels_live
  | Worker.triangle => st.triangle_live
  | Worker.trajectory => st.trajectory_live

/-- The child process that runs in a scheduling step, `none` for the parent. -/
def Event.worker : Event → Option Worker
  | Event.main _ => none
  | Event.ellipses _ => some Worker.ellipses
  | Event.pixels _ => some Worker.pixels
  | Event.triangle _ => some Worker.triangle
  | Event.trajectory => some Worker.trajectory

end Prog24

/-! ## Binary32 arithmetic of the reduction loops and of the trajectory step -/

/-- Rounding of a rational to the nearest integer, a tie going to the even
one. -/
def round_even (z : ℚ) : ℤ :=
  if z - ⌊z⌋ < 1 / 2 then ⌊z⌋
  else if 1 / 2 < z - ⌊z⌋ then ⌊z⌋ + 1
  else if ⌊z⌋ % 2 = 0 then ⌊z⌋ else ⌊z⌋ + 1

/-- The exponent of `q` in the binary32 format: the `e` with
`2 ^ e ≤ |q| < 2 ^ (e + 1)`, and `-126` below the normal range. -/
def f32_exponent (q : ℚ) : ℤ := max (Int.log 2 |q|) (-126)

/-- The value of a C `float` operation whose exact result is `q`: the binary32
number nearest to `q` (24 significant bits, ties to even). Overflow to
infinity is not modelled; the reduction loops and the trajectory step at phase
zero keep below `2 ^ 128`. -/
def f32_round (q : ℚ) : ℚ :=
  round_even (q / 2 ^ (f32_exponent q - 23)) * 2 ^ (f32_exponent q - 23)

namespace Prog25

/-- The value of the literal `6.283185307f`: the binary32 number nearest to
the decimal, `13176795 / 2 ^ 21`. -/
def twoPi_f32 : ℚ := f32_round (6283185307 / 1000000000)

/-- First reduction loop `while (x < 0) x += 6.283185307f;` (lines 24, 34) in
binary32 arithmetic, run for at most `fuel` passes through its body; `none`
when the guard still holds after them. -/
def reduce_up_f32 : Nat → ℚ → Option ℚ
  | 0, x => if x < 0 then none else some x
  | fuel + 1, x => if x < 0 then reduce_up_f32 fuel (f32_round (x + twoPi_f32)) else some x

/-- Second reduction loop `while (x >= 6.283185307f) x -= 6.283185307f;`
(lines 25, 35) in binary32 arithmetic, run for at most `fuel` passes through
its body; `none` when the guard still holds after them. -/
def reduce_down_f32 : Nat → ℚ → Option ℚ
  | 0, x => if x ≥ twoPi_f32 then none else some x
  | fuel + 1, x =>
    if x ≥ twoPi_f32 then reduce_down_f32 fuel (f32_round (x - twoPi_f32)) else some x

/-- The two reduction loops at the head of `my_cos` and `my_sin`, one after
the other, each run for at most `fuel` passes. -/
def reduce_f32 (fuel : Nat) (x : ℚ) : Option ℚ :=
  (reduce_up_f32 fuel x).bind (reduce_down_f32 fuel)

/-- The function `my_cos` (lines 23-31) in binary32 arithmetic: every
operation is rounded. -/
def my_cos_f32 (fuel : Nat) (x : ℚ) : Option ℚ :=
  (reduce_f32 fuel x).map fun x =>
    let x2 := f32_round (x * x)
    let x4 := f32_round (x2 * x2)
    let x6 := f32_round (x4 * x2)
    f32_round (f32_round (f32_round (1 - f32_round (x2 / 2)) + f32_round (x4 / 24)) -
      f32_round (x6 / 720))

/-- The function `my_sin` (lines 33-42) in binary32 arithmetic: every
operation is rounded. -/
def my_sin_f32 (fuel : Nat) (x : ℚ) : Option ℚ :=
  (reduce_f32 fuel x).map fun x =>
    let x2 := f32_round (x * x)
    let x3 := f32_round (x2 * x)
    let x5 := f32_round (x3 * x2)
    let x7 := f32_round (x5 * x2)
    f32_round (f32_round (f32_round (x - f32_round (x3 / 6)) + f32_round (x5 / 120)) -
      f32_round (x7 / 5040))

/-- The coordinates `(x, y)` computed by the `switch` of `move_trajectory`
(lines 87-111) in binary32 arithmetic, before the conversion to int. -/
def trajectory_xy_f32 (fuel : Nat) (shared : SharedData ℚ) (phi : ℚ) : Option (ℚ × ℚ) :=
  if shared.trajectory_type = 0 then do
    let c ← my_cos_f32 fuel phi
    let s ← my_sin_f32 fuel phi
    some (f32_round (f32_round (shared.a * c) + 300), f32_round (f32_round (shared.a * s) + 200))
  else if shared.trajectory_type = 1 then do
    let c ← my_cos_f32 fuel phi
    let s ← my_sin_f32 fuel phi
    some (f32_round (f32_round (shared.a * c) + 300), f32_round (f32_round (shared.b * s) + 200))
  else if shared.trajectory_type = 2 then do
    let c3 ← my_cos_f32 fuel (f32_round (3 * phi))
    let rho := f32_round (f32_round (shared.a * c3) + shared.b)
    let c ← my_cos_f32 fuel phi
    let s ← my_sin_f32 fuel phi
    some (f32_round (f32_round (rho * c) + 300), f32_round (f32_round (rho * s) + 200))
  else if shared.trajectory_type = 3 then do
    let s ← my_sin_f32 fuel phi
    let x := f32_round (f32_round (f32_round (16 * s) * s) * s)
    let c ← my_cos_f32 fuel phi
    let c2 ← my_cos_f32 fuel (f32_round (2 * phi))
    let c3 ← my_cos_f32 fuel (f32_round (3 * phi))
    let c4 ← my_cos_f32 fuel (f32_round (4 * phi))
    let y := f32_round (f32_round (f32_round (f32_round (13 * c) - f32_round (5 * c2)) -
      f32_round (2 * c3)) - c4)
    some (f32_round (f32_round (x * f32_round (shared.a / 16)) + 300),
      f32_round (f32_round (-y * f32_round (shared.b / 13)) + 200))
  else do
    let c ← my_cos_f32 fuel phi
    let s ← my_sin_f32 fuel phi
    some (f32_round (f32_round (shared.a * c) + 300), f32_round (f32_round (shared.a * s) + 200))

/-- The arguments `((int)x, (int)y)` of the call `MoveTo` (line 113) in
binary32 arithmetic. -/
def move_target_f32 (fuel : Nat) (shared : SharedData ℚ) (phi : ℚ) : Option (Int × Int) :=
  (trajectory_xy_f32 fuel shared phi).map fun p => (to_int p.1, to_int p.2)

end Prog25

/-! ## Properties -/

section KeyHandler

variable {K : Type} [LinearOrderedField K]

/-- The clamp `if (x > c) x = c;` computes `min x c`. -/
theorem clamp_up_eq_min (x c : K) : (if x > c then c else x) = min x c := by
  rw [min_def]
  by_cases h : x > c
  · rw [if_pos h, if_neg (not_le.mpr h)]
  · rw [if_neg h, if_pos (not_lt.mp h)]

/-- The clamp `if (x < c) x = c;` computes `max x c`. -/
theorem clamp_down_eq_max (x c : K) : (if x < c then c else x) = max x c := by
  rw [max_def]
  by_cases h : x < c
  · rw [if_pos h, if_pos h.le]
  · rw [if_neg h]
    rcases (not_lt.mp h).eq_or_lt with h1 | h1
    · rw [if_pos h1.ge, h1]
    · rw [if_neg (not_le.mpr h1)]

/-- Case analysis on the key switch of the thread program: a property holds
of its result as soon as it holds of the result of each `case` and, for a key
that is none of the labels, of the unchanged data. -/
theorem Prog25.handle_key_cases (s : Prog25.SharedData K) (key : Int)
    (P : Prog25.SharedData K → Prop)
    (hw : key = 119 ∨ key = 87 → P { s with a := min (s.a + 5) 100 })
    (hs : key = 115 ∨ key = 83 → P { s with a := max (s.a - 5) 20 })
    (ha : key = 97 ∨ key = 65 → P { s with b := min (s.b + 5) 80 })
    (hd : key = 100 ∨ key = 68 → P { s with b := max (s.b - 5) 10 })
    (hplus : key = 43 → P { s with speed := min (s.speed + 5 / 1000) (1 / 10) })
    (hminus : key = 45 → P { s with speed := max (s.speed - 5 / 1000) (5 / 1000) })
    (h1 : key = 49 → P { s with trajectory_type := 0 })
    (h2 : key = 50 → P { s with trajectory_type := 1 })
    (h3 : key = 51 → P { s with trajectory_type := 2 })
    (h4 : key = 52 → P { s with trajectory_type := 3 })
    (hother : key ∉ [119, 87, 115, 83, 97, 65, 100, 68, 43, 45, 49, 50, 51, 52] → P s) :
    P (Prog25.handle_key s key) := by
  unfold Prog25.handle_key
  by_cases c1 : key = 119 ∨ key = 87
  · have e := hw c1
    rw [← clamp_up_eq_min] at e
    rw [if_pos c1]
    by_cases c : s.a + 5 > 100
    · rw [if_pos c] at e; dsimp only; rw [if_pos c]; exact e
    · rw [if_neg c] at e; dsimp only; rw [if_neg c]; exact e
  rw [if_neg c1]
  by_cases c2 : key = 115 ∨ key = 83
  · have e := hs c2
    rw [← clamp_down_eq_max] at e
    rw [if_pos c2]
    by_cases c : s.a - 5 < 20
    · rw [if_pos c] at e; dsimp only; rw [if_pos c]; exact e
    · rw [if_neg c] at e; dsimp only; rw [if_neg c]; exact e
  rw [if_neg c2]
  by_cases c3 : key = 97 ∨ key = 65
  · have e := ha c3
    rw [← clamp_up_eq_min] at e
    rw [if_pos c3]
    by_cases c : s.b + 5 > 80
    · rw [if_pos c] at e; dsimp only; rw [if_pos c]; exact e
    · rw [if_neg c] at e; dsimp only; rw [if_neg c]; exact e
  rw [if_neg c3]
  by_cases c4 : key = 100 ∨ key = 68
  · have e := hd c4
    rw [← clamp_down_eq_max] at e
    rw [if_pos c4]
    by_cases c : s.b - 5 < 10
    · rw [if_pos c] at e; dsimp only; rw [if_pos c]; exact e
    · rw [if_neg c] at e; dsimp only; rw [if_neg c]; exact e
  rw [if_neg c4]
  by_cases c5 : key = 43
  · have e := hplus c5
    rw [← clamp_up_eq_min] at e
    rw [if_pos c5]
    by_cases c : s.speed + 5 / 1000 > 1 / 10
    · rw [if_pos c] at e; dsimp only; rw [if_pos c]; exact e
    · rw [if_neg c] at e; dsimp only; rw [if_neg c]; exact e
  rw [if_neg c5]
  by_cases c6 : key = 45
  · have e := hminus c6
    rw [← clamp_down_eq_max] at e
    rw [if_pos c6]
    by_cases c : s.speed - 5 / 1000 < 5 / 1000
    · rw [if_pos c] at e; dsimp only; rw [if_pos c]; exact e
    · rw [if_neg c] at e; dsimp only; rw [if_neg c]; exact e
  rw [if_neg c6]
  by_cases c7 : key = 49
  · rw [if_pos c7]; exact h1 c7
  rw [if_neg c7]
  by_cases c8 : key = 50
  · rw [if_pos c8]; exact h2 c8
  rw [if_neg c8]
  by_cases c9 : key = 51
  · rw [if_pos c9]; exact h3 c9
  rw [if_neg c9]
  by_cases c10 : key = 52
  · rw [if_pos c10]; exact h4 c10
  rw [if_neg c10]
  apply hother
  simp only [List.mem_cons, List.mem_singleton, List.not_mem_nil, or_false, not_or]
  simp only [not_or] at c1 c2 c3 c4
  exact ⟨c1.1, c1.2, c2.1, c2.2, c3.1, c3.2, c4.1, c4.2, c5, c6, c7, c8, c9, c10⟩

/-- The key switch of the thread program computes the key table of the
specification, for every shared data and every key code. -/
theorem Prog25.handle_key_eq_spec (s : Prog25.SharedData K) (key : Int) :
    Prog25.handle_key s key = Prog25.spec_key_table s key := by
  apply Prog25.handle_key_cases s key (fun r => r = Prog25.spec_key_table s key)
  · rintro (rfl | rfl) <;> simp [Prog25.spec_key_table]
  · rintro (rfl | rfl) <;> simp [Prog25.spec_key_table]
  · rintro (rfl | rfl) <;> simp [Prog25.spec_key_table]
  · rintro (rfl | rfl) <;> simp [Prog25.spec_key_table]
  · rintro rfl; simp [Prog25.spec_key_table]
  · rintro rfl; simp [Prog25.spec_key_table]
  · rintro rfl; simp [Prog25.spec_key_table, TrajectoryKind.code]
  · rintro rfl; simp [Prog25.spec_key_table, TrajectoryKind.code]
  · rintro rfl; simp [Prog25.spec_key_table, TrajectoryKind.code]
  · rintro rfl; simp [Prog25.spec_key_table, TrajectoryKind.code]
  · intro h
    simp only [List.mem_cons, List.mem_singleton, List.not_mem_nil, or_false, not_or] at h
    obtain ⟨k1, k2, k3, k4, k5, k6, k7, k8, k9, k10, k11, k12, k13, k14⟩ := h
    simp [Prog25.spec_key_table, k1, k2, k3, k4, k5, k6, k7, k8, k9, k10, k11, k12, k13, k14]

/-- One pass of the key switch of the thread program preserves the range
invariant. -/
theorem Prog25.handle_key_in_range (s : Prog25.SharedData K) (key : Int)
    (h : Prog25.in_range s) : Prog25.in_range (Prog25.handle_key s key) := by
  obtain ⟨⟨ha1, ha2⟩, ⟨hb1, hb2⟩, ⟨hs1, hs2⟩, ht⟩ := h
  apply Prog25.handle_key_cases s key Prog25.in_range
  · exact fun _ => ⟨⟨le_min (by linarith) (by norm_num), min_le_right _ _⟩, ⟨hb1, hb2⟩, ⟨hs1, hs2⟩, ht⟩
  · exact fun _ => ⟨⟨le_max_right _ _, max_le (by linarith) (by norm_num)⟩, ⟨hb1, hb2⟩, ⟨hs1, hs2⟩, ht⟩
  · exact fun _ => ⟨⟨ha1, ha2⟩, ⟨le_min (by linarith) (by norm_num), min_le_right _ _⟩, ⟨hs1, hs2⟩, ht⟩
  · exact fun _ => ⟨⟨ha1, ha2⟩, ⟨le_max_right _ _, max_le (by linarith) (by norm_num)⟩, ⟨hs1, hs2⟩, ht⟩
  · exact fun _ => ⟨⟨ha1, ha2⟩, ⟨hb1, hb2⟩, ⟨le_min (by linarith) (by norm_num), min_le_right _ _⟩, ht⟩
  · exact fun _ => ⟨⟨ha1, ha2⟩, ⟨hb1, hb2⟩, ⟨le_max_right _ _, max_le (by linarith) (by norm_num)⟩, ht⟩
  · exact fun _ => ⟨⟨ha1, ha2⟩, ⟨hb1, hb2⟩, ⟨hs1, hs2⟩, Or.inl rfl⟩
  · exact fun _ => ⟨⟨ha1, ha2⟩, ⟨hb1, hb2⟩, ⟨hs1, hs2⟩, Or.inr (Or.inl rfl)⟩
  · exact fun _ => ⟨⟨ha1, ha2⟩, ⟨hb1, hb2⟩, ⟨hs1, hs2⟩, Or.inr (Or.inr (Or.inl rfl))⟩
  · exact fun _ => ⟨⟨ha1, ha2⟩, ⟨hb1, hb2⟩, ⟨hs1, hs2⟩, Or.inr (Or.inr (Or.inr rfl))⟩
  · exact fun _ => ⟨⟨ha1, ha2⟩, ⟨hb1, hb2⟩, ⟨hs1, hs2⟩, ht⟩

/-- The key switch of the process program and that of the thread program do
the same to the four configuration fields. -/
theorem Prog24.handle_key_config (s : Prog25.SharedData K) (key : Int) :
    Prog24.handle_key s.config key = (Prog25.handle_key s key).config := by
  unfold Prog24.handle_key Prog25.handle_key
  simp only [apply_ite Prog25.SharedData.config]
  rfl

/-- One pass of the key switch of the process program preserves the range
invariant. -/
theorem Prog24.process_handle_key_in_range (s : Prog24.SharedData K) (key : Int)
    (h : Prog24.in_range s) : Prog24.in_range (Prog24.handle_key s key) := by
  have h25 : Prog25.in_range (⟨s.a, s.b, s.speed, s.trajectory_type, 0⟩ : Prog25.SharedData K) := h
  have e := Prog25.handle_key_in_range _ key h25
  have c := Prog24.handle_key_config (⟨s.a, s.b, s.speed, s.trajectory_type, 0⟩ : Prog25.SharedData K) key
  have hs : (⟨s.a, s.b, s.speed, s.trajectory_type, 0⟩ : Prog25.SharedData K).config = s := rfl
  rw [hs] at c
  rw [c]
  exact e

/-- The range invariant holds after any sequence of keys, from any
configuration that satisfies it (thread program). -/
theorem Prog25.foldl_handle_key_in_range (keys : List Int) (s : Prog25.SharedData K)
    (h : Prog25.in_range s) : Prog25.in_range (keys.foldl Prog25.handle_key s) := by
  induction keys generalizing s with
  | nil => exact h
  | cons k ks ih => exact ih _ (Prog25.handle_key_in_range s k h)

/-- The range invariant holds after any sequence of keys, from any
configuration that satisfies it (process program). -/
theorem Prog24.process_foldl_handle_key_in_range (keys : List Int) (s : Prog24.SharedData K)
    (h : Prog24.in_range s) : Prog24.in_range (keys.foldl Prog24.handle_key s) := by
  induction keys generalizing s with
  | nil => exact h
  | cons k ks ih => exact ih _ (Prog24.process_handle_key_in_range s k h)

/-- Claim C1 (configuration invariant). The defaults are `radius_a = 60`,
`shape_b = 40`, `angular_speed = 0.02`, `trajectory_kind = Circle` in both
programs, and for every finite sequence of key codes fed to the key switch of
the control loop, after every single key (after the first `n` keys, for every
`n`) the configuration satisfies `20 ≤ a ≤ 100`, `10 ≤ b ≤ 80`,
`0.005 ≤ speed ≤ 0.1` and `trajectory_type ∈ {0, 1, 2, 3}`. Arithmetic is
exact: `K` is any linearly ordered field, the rationals in particular. -/
theorem config_invariant_after_every_key (keys : List Int) (n : Nat) :
    ((Prog25.init_shared : Prog25.SharedData K).a = 60 ∧
      (Prog25.init_shared : Prog25.SharedData K).b = 40 ∧
      (Prog25.init_shared : Prog25.SharedData K).speed = 2 / 100 ∧
      (Prog25.init_shared : Prog25.SharedData K).trajectory_type = TrajectoryKind.Circle.code) ∧
    ((Prog24.init_shared : Prog24.SharedData K).a = 60 ∧
      (Prog24.init_shared : Prog24.SharedData K).b = 40 ∧
      (Prog24.init_shared : Prog24.SharedData K).speed = 2 / 100 ∧
      (Prog24.init_shared : Prog24.SharedData K).trajectory_type = TrajectoryKind.Circle.code) ∧
    Prog25.in_range ((keys.take n).foldl Prog25.handle_key (Prog25.init_shared : Prog25.SharedData K)) ∧
    Prog24.in_range ((keys.take n).foldl Prog24.handle_key (Prog24.init_shared : Prog24.SharedData K)) := by
  refine ⟨⟨rfl, rfl, rfl, rfl⟩, ⟨rfl, rfl, rfl, rfl⟩, ?_, ?_⟩
  · apply Prog25.foldl_handle_key_in_range
    simp only [Prog25.in_range, Prog25.init_shared]
    norm_num
  · apply Prog24.process_foldl_handle_key_in_range
    simp only [Prog24.in_range, Prog24.init_shared]
    norm_num

/-- Claim C2 (key table). For every configuration (in particular every one that
satisfies the range invariant) and every key code, one pass of the switch of
the control loop equals the key table of the specification: `w`/`W` set `a` to
`min (a + 5) 100`, `s`/`S` to `max (a - 5) 20`, `a`/`A` set `b` to
`min (b + 5) 80`, `d`/`D` to `max (b - 5) 10`, `+` sets `speed` to
`min (speed + 0.005) 0.1`, `-` to `max (speed - 0.005) 0.005`, `1`..`4` set
`trajectory_type` to Circle, Ellipse, Rose, Heart, every other key code (ESC
included) leaves the data unchanged, and the fields a row does not name are
unchanged. It holds of the thread program and, on the four configuration
fields, of the process program. -/
theorem key_switch_equals_spec_table (s : Prog25.SharedData K) (key : Int) :
    Prog25.handle_key s key = Prog25.spec_key_table s key ∧
    Prog24.handle_key s.config key = (Prog25.spec_key_table s key).config := by
  refine ⟨Prog25.handle_key_eq_spec s key, ?_⟩
  rw [Prog24.handle_key_config, Prog25.handle_key_eq_spec]

end KeyHandler

section Reduction

variable {K : Type} [LinearOrderedField K] [FloorRing K]

/-- The reduction constant is positive. -/
theorem Prog25.twoPi_pos {K : Type} [LinearOrderedField K] : (0 : K) < Prog25.twoPi := by
  unfold Prog25.twoPi; norm_num

/-- The first reduction loop does not iterate on a nonnegative argument. -/
theorem Prog25.reduce_up_of_nonneg (x : K) (h : 0 ≤ x) : Prog25.reduce_up x = x := by
  rw [Prog25.reduce_up, if_neg (not_lt.mpr h)]

/-- The second reduction loop does not iterate below the constant. -/
theorem Prog25.reduce_down_of_lt (x : K) (h : x < Prog25.twoPi) : Prog25.reduce_down x = x := by
  rw [Prog25.reduce_down, if_neg (not_le.mpr h)]

/-- The value of `x` after `j` passes through the body of the first loop. -/
theorem Prog25.iterate_add_twoPi {K : Type} [LinearOrderedField K] (j : ℕ) (x : K) :
    (fun y : K => y + Prog25.twoPi)^[j] x = x + j * Prog25.twoPi := by
  induction j generalizing x with
  | zero => simp
  | succ j ih => rw [Function.iterate_succ_apply, ih]; push_cast; ring

/-- The value of `x` after `j` passes through the body of the second loop. -/
theorem Prog25.iterate_sub_twoPi {K : Type} [LinearOrderedField K] (j : ℕ) (x : K) :
    (fun y : K => y - Prog25.twoPi)^[j] x = x - j * Prog25.twoPi := by
  induction j generalizing x with
  | zero => simp
  | succ j ih => rw [Function.iterate_succ_apply, ih]; push_cast; ring

/-- The first reduction loop adds the constant `m` times, where the guard
`x < 0` holds before each of the `m` passes and fails after the last. -/
theorem Prog25.reduce_up_spec (x : K) :
    ∃ m : ℕ, Prog25.reduce_up x = x + m * Prog25.twoPi ∧
      (∀ j : ℕ, j < m → x + j * Prog25.twoPi < 0) ∧ 0 ≤ x + m * Prog25.twoPi := by
  induction x using Prog25.reduce_up.induct with
  | case1 x h ih =>
    obtain ⟨m, e, hlt, hge⟩ := ih
    refine ⟨m + 1, ?_, ?_, ?_⟩
    · rw [Prog25.reduce_up, if_pos h, e]; push_cast; ring
    · intro j hj
      cases j with
      | zero => simpa using h
      | succ j =>
        have := hlt j (by omega)
        push_cast
        linarith
    · push_cast; linarith
  | case2 x h =>
    refine ⟨0, ?_, ?_, ?_⟩
    · rw [Prog25.reduce_up, if_neg h]; simp
    · intro j hj; omega
    · simpa using not_lt.mp h

/-- The second reduction loop subtracts the constant `n` times, where the
guard `x >= 6.283185307f` holds before each of the `n` passes and fails after
the last. -/
theorem Prog25.reduce_down_spec (x : K) :
    ∃ n : ℕ, Prog25.reduce_down x = x - n * Prog25.twoPi ∧
      (∀ j : ℕ, j < n → x - j * Prog25.twoPi ≥ Prog25.twoPi) ∧ x - n * Prog25.twoPi < Prog25.twoPi := by
  induction x using Prog25.reduce_down.induct with
  | case1 x h ih =>
    obtain ⟨n, e, hge, hlt⟩ := ih
    refine ⟨n + 1, ?_, ?_, ?_⟩
    · rw [Prog25.reduce_down, if_pos h, e]; push_cast; ring
    · intro j hj
      cases j with
      | zero => simpa using h
      | succ j =>
        have := hge j (by omega)
        push_cast
        linarith
    · push_cast; linarith
  | case2 x h =>
    refine ⟨0, ?_, ?_, ?_⟩
    · rw [Prog25.reduce_down, if_neg h]; simp
    · intro j hj; omega
    · simpa using not_le.mp h

/-- The first reduction loop is the same function in the two programs. -/
theorem Prog24.reduce_up_eq (x : K) : Prog24.reduce_up x = Prog25.reduce_up x := by
  induction x using Prog25.reduce_up.induct with
  | case1 x h ih => rw [Prog24.reduce_up, Prog25.reduce_up, if_pos h, if_pos h]; exact ih
  | case2 x h => rw [Prog24.reduce_up, Prog25.reduce_up, if_neg h, if_neg h]

/-- The second reduction loop is the same function in the two programs. -/
theorem Prog24.reduce_down_eq (x : K) : Prog24.reduce_down x = Prog25.reduce_down x := by
  induction x using Prog25.reduce_down.induct with
  | case1 x h ih =>
    have h24 : x ≥ Prog24.twoPi := h
    rw [Prog24.reduce_down, Prog25.reduce_down, if_pos h, if_pos h24]; exact ih
  | case2 x h =>
    have h24 : ¬ x ≥ Prog24.twoPi := h
    rw [Prog24.reduce_down, Prog25.reduce_down, if_neg h, if_neg h24]

/-- The function `my_cos` is the same function in the two programs. -/
theorem Prog24.my_cos_eq (x : K) : Prog24.my_cos x = Prog25.my_cos x := by
  unfold Prog24.my_cos Prog25.my_cos
  rw [Prog24.reduce_up_eq, Prog24.reduce_down_eq]

/-- The function `my_sin` is the same function in the two programs. -/
theorem Prog24.my_sin_eq (x : K) : Prog24.my_sin x = Prog25.my_sin x := by
  unfold Prog24.my_sin Prog25.my_sin
  rw [Prog24.reduce_up_eq, Prog24.reduce_down_eq]

/-- On `[0, 6.283185307)` the reduction loops do not iterate and `my_cos` is
the polynomial `1 - x²/2 + x⁴/24 - x⁶/720`. -/
theorem Prog25.my_cos_of_reduced (x : K) (h0 : 0 ≤ x) (h1 : x < Prog25.twoPi) :
    Prog25.my_cos x = 1 - x ^ 2 / 2 + x ^ 4 / 24 - x ^ 6 / 720 := by
  unfold Prog25.my_cos
  rw [Prog25.reduce_up_of_nonneg x h0, Prog25.reduce_down_of_lt x h1]
  ring

/-- On `[0, 6.283185307)` the reduction loops do not iterate and `my_sin` is
the polynomial `x - x³/6 + x⁵/120 - x⁷/5040`. -/
theorem Prog25.my_sin_of_reduced (x : K) (h0 : 0 ≤ x) (h1 : x < Prog25.twoPi) :
    Prog25.my_sin x = x - x ^ 3 / 6 + x ^ 5 / 120 - x ^ 7 / 5040 := by
  unfold Prog25.my_sin
  rw [Prog25.reduce_up_of_nonneg x h0, Prog25.reduce_down_of_lt x h1]
  ring

/-- The value `my_cos(0) = 1`. -/
theorem Prog25.my_cos_zero : Prog25.my_cos (0 : K) = 1 := by
  rw [Prog25.my_cos_of_reduced 0 le_rfl (by unfold Prog25.twoPi; norm_num)]
  norm_num

/-- The value `my_sin(0) = 0`. -/
theorem Prog25.my_sin_zero : Prog25.my_sin (0 : K) = 0 := by
  rw [Prog25.my_sin_of_reduced 0 le_rfl (by unfold Prog25.twoPi; norm_num)]
  norm_num


/-- The reduction loops in exact arithmetic. For every `x` the first loop makes
exactly `m` passes (its guard `x < 0` holds before each of them and fails
after the last) and the second loop exactly `n` passes (its guard
`x >= 6.283185307` holds before each and fails after the last), with
`(m + n) * 6.283185307 ≤ |x| + 6.283185307`; the reduced value
`r = reduce_down (reduce_up x)`, at which the polynomials of the exact
`my_cos` and `my_sin` are evaluated, satisfies `0 ≤ r < 6.283185307` and
`r - x` is an integer multiple of `6.283185307`. The loops of the program, in
binary32 arithmetic, are `reduce_up_f32` and `reduce_down_f32`. -/
theorem range_reduction_terminates_in_range (x : K) :
    ∃ m n : ℕ,
      ((∀ j : ℕ, j < m → (fun y : K => y + Prog25.twoPi)^[j] x < 0) ∧
        ¬ ((fun y : K => y + Prog25.twoPi)^[m] x < 0) ∧
        Prog25.reduce_up x = (fun y : K => y + Prog25.twoPi)^[m] x) ∧
      ((∀ j : ℕ, j < n → (fun y : K => y - Prog25.twoPi)^[j] (Prog25.reduce_up x) ≥ Prog25.twoPi) ∧
        ¬ ((fun y : K => y - Prog25.twoPi)^[n] (Prog25.reduce_up x) ≥ Prog25.twoPi) ∧
        Prog25.reduce_down (Prog25.reduce_up x) =
          (fun y : K => y - Prog25.twoPi)^[n] (Prog25.reduce_up x)) ∧
      ((m + n : ℕ) : K) * Prog25.twoPi ≤ |x| + Prog25.twoPi ∧
      (0 ≤ Prog25.reduce_down (Prog25.reduce_up x) ∧
        Prog25.reduce_down (Prog25.reduce_up x) < Prog25.twoPi ∧
        ∃ k : ℤ, Prog25.reduce_down (Prog25.reduce_up x) - x = k * Prog25.twoPi) ∧
      (Prog25.my_cos x =
          1 - Prog25.reduce_down (Prog25.reduce_up x) ^ 2 / 2 +
            Prog25.reduce_down (Prog25.reduce_up x) ^ 4 / 24 -
            Prog25.reduce_down (Prog25.reduce_up x) ^ 6 / 720 ∧
        Prog25.my_sin x =
          Prog25.reduce_down (Prog25.reduce_up x) -
            Prog25.reduce_down (Prog25.reduce_up x) ^ 3 / 6 +
            Prog25.reduce_down (Prog25.reduce_up x) ^ 5 / 120 -
            Prog25.reduce_down (Prog25.reduce_up x) ^ 7 / 5040) := by
  obtain ⟨m, em, hm, hm0⟩ := Prog25.reduce_up_spec x
  obtain ⟨n, en, hn, hn0⟩ := Prog25.reduce_down_spec (Prog25.reduce_up x)
  have hc : (0 : K) < Prog25.twoPi := Prog25.twoPi_pos
  have hbound : ((m + n : ℕ) : K) * Prog25.twoPi ≤ |x| + Prog25.twoPi := by
    rcases Nat.eq_zero_or_pos m with m0 | mpos
    · subst m0
      have hx : 0 ≤ x := by simpa using hm0
      rw [abs_of_nonneg hx]
      rcases Nat.eq_zero_or_pos n with n0 | npos
      · subst n0; simp; linarith
      · have h1 := hn (n - 1) (by omega)
        rw [em] at h1
        have e1 : ((n - 1 : ℕ) : K) = (n : K) - 1 := by
          rw [Nat.cast_sub npos]; simp
        rw [e1] at h1
        simp only [Nat.cast_zero, zero_mul, add_zero, zero_add] at h1 ⊢
        linarith
    · have h1 := hm (m - 1) (by omega)
      have e1 : ((m - 1 : ℕ) : K) = (m : K) - 1 := by
        rw [Nat.cast_sub mpos]; simp
      rw [e1] at h1
      have hx : x < 0 := by simpa using hm 0 mpos
      rw [abs_of_neg hx]
      have n0 : n = 0 := by
        rcases Nat.eq_zero_or_pos n with n0 | npos
        · exact n0
        · have h2 := hn 0 npos
          rw [em] at h2
          simp only [Nat.cast_zero, zero_mul, sub_zero] at h2
          linarith
      subst n0
      simp only [add_zero]
      linarith
  have hr0 : 0 ≤ Prog25.reduce_down (Prog25.reduce_up x) := by
    rw [en]
    rcases Nat.eq_zero_or_pos n with n0 | npos
    · subst n0; rw [em]; simpa using hm0
    · have h1 := hn (n - 1) (by omega)
      have e1 : ((n - 1 : ℕ) : K) = (n : K) - 1 := by
        rw [Nat.cast_sub npos]; simp
      rw [e1] at h1
      linarith
  refine ⟨m, n, ⟨?_, ?_, ?_⟩, ⟨?_, ?_, ?_⟩, hbound, ⟨hr0, ?_, ?_⟩, ?_, ?_⟩
  · intro j hj; rw [Prog25.iterate_add_twoPi]; exact hm j hj
  · rw [Prog25.iterate_add_twoPi]; exact not_lt.mpr hm0
  · rw [Prog25.iterate_add_twoPi]; exact em
  · intro j hj; rw [Prog25.iterate_sub_twoPi]; exact hn j hj
  · rw [Prog25.iterate_sub_twoPi]; exact not_le.mpr hn0
  · rw [Prog25.iterate_sub_twoPi]; exact en
  · rw [en]; exact hn0
  · refine ⟨(m : ℤ) - (n : ℤ), ?_⟩
    rw [en, em]; push_cast; ring
  · unfold Prog25.my_cos; ring
  · unfold Prog25.my_sin; ring

end Reduction

section Taylor

open Real

/-- Two functions that agree at `0`, the derivative of the first at most that
of the second on the nonnegative half line: the first is at most the second
there. -/
theorem le_of_deriv_le_on_nonneg (f g df dg : ℝ → ℝ)
    (hf : ∀ x, HasDerivAt f (df x) x) (hg : ∀ x, HasDerivAt g (dg x) x)
    (h0 : f 0 = g 0) (h : ∀ x, 0 ≤ x → df x ≤ dg x) (x : ℝ) (hx : 0 ≤ x) : f x ≤ g x := by
  have hd : ∀ y, HasDerivAt (fun t => g t - f t) (dg y - df y) y := fun y => (hg y).sub (hf y)
  have hmono : MonotoneOn (fun t => g t - f t) (Set.Ici 0) := by
    apply monotoneOn_of_deriv_nonneg (convex_Ici 0)
    · exact fun y _ => (hd y).continuousAt.continuousWithinAt
    · exact fun y _ => (hd y).differentiableAt.differentiableWithinAt
    · intro y hy
      rw [interior_Ici] at hy
      rw [(hd y).deriv]
      linarith [h y (le_of_lt hy)]
  have := hmono (Set.mem_Ici.mpr le_rfl) (Set.mem_Ici.mpr hx) hx
  simp only [h0, sub_self] at this
  linarith

/-- Derivative of the cosine polynomial of degree 4. -/
theorem hasDerivAt_cos_deg4 (t : ℝ) :
    HasDerivAt (fun t : ℝ => 1 - t ^ 2 / 2 + t ^ 4 / 24) (-(t - t ^ 3 / 6)) t := by
  have := ((hasDerivAt_const t (1 : ℝ)).sub ((hasDerivAt_pow 2 t).div_const 2)).add
    ((hasDerivAt_pow 4 t).div_const 24)
  convert this using 1
  simp; ring

/-- Derivative of the cosine polynomial of degree 6. -/
theorem hasDerivAt_cos_deg6 (t : ℝ) :
    HasDerivAt (fun t : ℝ => 1 - t ^ 2 / 2 + t ^ 4 / 24 - t ^ 6 / 720)
      (-(t - t ^ 3 / 6 + t ^ 5 / 120)) t := by
  have := (((hasDerivAt_const t (1 : ℝ)).sub ((hasDerivAt_pow 2 t).div_const 2)).add
    ((hasDerivAt_pow 4 t).div_const 24)).sub ((hasDerivAt_pow 6 t).div_const 720)
  convert this using 1
  simp; ring

/-- Derivative of the cosine polynomial of degree 8. -/
theorem hasDerivAt_cos_deg8 (t : ℝ) :
    HasDerivAt (fun t : ℝ => 1 - t ^ 2 / 2 + t ^ 4 / 24 - t ^ 6 / 720 + t ^ 8 / 40320)
      (-(t - t ^ 3 / 6 + t ^ 5 / 120 - t ^ 7 / 5040)) t := by
  have := ((((hasDerivAt_const t (1 : ℝ)).sub ((hasDerivAt_pow 2 t).div_const 2)).add
    ((hasDerivAt_pow 4 t).div_const 24)).sub ((hasDerivAt_pow 6 t).div_const 720)).add
    ((hasDerivAt_pow 8 t).div_const 40320)
  convert this using 1
  simp; ring

/-- Derivative of the sine polynomial of degree 3. -/
theorem hasDerivAt_sin_deg3 (t : ℝ) :
    HasDerivAt (fun t : ℝ => t - t ^ 3 / 6) (1 - t ^ 2 / 2) t := by
  have := (hasDerivAt_id t).sub ((hasDerivAt_pow 3 t).div_const 6)
  convert this using 1
  simp; ring

/-- Derivative of the sine polynomial of degree 5. -/
theorem hasDerivAt_sin_deg5 (t : ℝ) :
    HasDerivAt (fun t : ℝ => t - t ^ 3 / 6 + t ^ 5 / 120) (1 - t ^ 2 / 2 + t ^ 4 / 24) t := by
  have := ((hasDerivAt_id t).sub ((hasDerivAt_pow 3 t).div_const 6)).add
    ((hasDerivAt_pow 5 t).div_const 120)
  convert this using 1
  simp; ring

/-- Derivative of the sine polynomial of degree 7. -/
theorem hasDerivAt_sin_deg7 (t : ℝ) :
    HasDerivAt (fun t : ℝ => t - t ^ 3 / 6 + t ^ 5 / 120 - t ^ 7 / 5040)
      (1 - t ^ 2 / 2 + t ^ 4 / 24 - t ^ 6 / 720) t := by
  have := (((hasDerivAt_id t).sub ((hasDerivAt_pow 3 t).div_const 6)).add
    ((hasDerivAt_pow 5 t).div_const 120)).sub ((hasDerivAt_pow 7 t).div_const 5040)
  convert this using 1
  simp; ring

/-- Derivative of the sine polynomial of degree 9. -/
theorem hasDerivAt_sin_deg9 (t : ℝ) :
    HasDerivAt (fun t : ℝ => t - t ^ 3 / 6 + t ^ 5 / 120 - t ^ 7 / 5040 + t ^ 9 / 362880)
      (1 - t ^ 2 / 2 + t ^ 4 / 24 - t ^ 6 / 720 + t ^ 8 / 40320) t := by
  have := ((((hasDerivAt_id t).sub ((hasDerivAt_pow 3 t).div_const 6)).add
    ((hasDerivAt_pow 5 t).div_const 120)).sub ((hasDerivAt_pow 7 t).div_const 5040)).add
    ((hasDerivAt_pow 9 t).div_const 362880)
  convert this using 1
  simp; ring

/-- Derivative of the cosine. -/
theorem hasDerivAt_cos_neg_sin (t : ℝ) : HasDerivAt cos (-(sin t)) t := hasDerivAt_cos t

/-- Lower bound of the sine by its Maclaurin polynomial of degree 3. -/
theorem sin_ge_deg3 (x : ℝ) (hx : 0 ≤ x) : x - x ^ 3 / 6 ≤ sin x :=
  le_of_deriv_le_on_nonneg _ _ _ _ hasDerivAt_sin_deg3 hasDerivAt_sin (by simp)
    (fun _ _ => one_sub_sq_div_two_le_cos) x hx

/-- Upper bound of the cosine by its Maclaurin polynomial of degree 4. -/
theorem cos_le_deg4 (x : ℝ) (hx : 0 ≤ x) : cos x ≤ 1 - x ^ 2 / 2 + x ^ 4 / 24 :=
  le_of_deriv_le_on_nonneg _ _ _ _ hasDerivAt_cos_neg_sin hasDerivAt_cos_deg4 (by simp)
    (fun t ht => neg_le_neg (sin_ge_deg3 t ht)) x hx

/-- Upper bound of the sine by its Maclaurin polynomial of degree 5. -/
theorem sin_le_deg5 (x : ℝ) (hx : 0 ≤ x) : sin x ≤ x - x ^ 3 / 6 + x ^ 5 / 120 :=
  le_of_deriv_le_on_nonneg _ _ _ _ hasDerivAt_sin hasDerivAt_sin_deg5 (by simp)
    (fun t ht => cos_le_deg4 t ht) x hx

/-- Lower bound of the cosine by its Maclaurin polynomial of degree 6. -/
theorem cos_ge_deg6 (x : ℝ) (hx : 0 ≤ x) :
    1 - x ^ 2 / 2 + x ^ 4 / 24 - x ^ 6 / 720 ≤ cos x :=
  le_of_deriv_le_on_nonneg _ _ _ _ hasDerivAt_cos_deg6 hasDerivAt_cos_neg_sin (by simp)
    (fun t ht => neg_le_neg (sin_le_deg5 t ht)) x hx

/-- Lower bound of the sine by its Maclaurin polynomial of degree 7. -/
theorem sin_ge_deg7 (x : ℝ) (hx : 0 ≤ x) :
    x - x ^ 3 / 6 + x ^ 5 / 120 - x ^ 7 / 5040 ≤ sin x :=
  le_of_deriv_le_on_nonneg _ _ _ _ hasDerivAt_sin_deg7 hasDerivAt_sin (by simp)
    (fun t ht => cos_ge_deg6 t ht) x hx

/-- Upper bound of the cosine by its Maclaurin polynomial of degree 8. -/
theorem cos_le_deg8 (x : ℝ) (hx : 0 ≤ x) :
    cos x ≤ 1 - x ^ 2 / 2 + x ^ 4 / 24 - x ^ 6 / 720 + x ^ 8 / 40320 :=
  le_of_deriv_le_on_nonneg _ _ _ _ hasDerivAt_cos_neg_sin hasDerivAt_cos_deg8 (by simp)
    (fun t ht => neg_le_neg (sin_ge_deg7 t ht)) x hx

/-- Upper bound of the sine by its Maclaurin polynomial of degree 9. -/
theorem sin_le_deg9 (x : ℝ) (hx : 0 ≤ x) :
    sin x ≤ x - x ^ 3 / 6 + x ^ 5 / 120 - x ^ 7 / 5040 + x ^ 9 / 362880 :=
  le_of_deriv_le_on_nonneg _ _ _ _ hasDerivAt_sin hasDerivAt_sin_deg9 (by simp)
    (fun t ht => cos_le_deg8 t ht) x hx

/-- A quarter turn lies below the reduction constant. -/
theorem Prog25.lt_twoPi_of_le_pi_div_two (x : ℝ) (h1 : x ≤ π / 2) : x < Prog25.twoPi := by
  have := pi_lt_four
  unfold Prog25.twoPi
  norm_num
  linarith

/-- On the first quadrant `my_cos` lies below the cosine by at most `1e-3`. -/
theorem Prog25.my_cos_error (x : ℝ) (h0 : 0 ≤ x) (h1 : x ≤ π / 2) :
    -(1 / 1000) ≤ Prog25.my_cos x - cos x ∧ Prog25.my_cos x - cos x ≤ 0 := by
  rw [Prog25.my_cos_of_reduced x h0 (Prog25.lt_twoPi_of_le_pi_div_two x h1)]
  have hx : x ≤ 15708 / 10000 := by linarith [pi_lt_d4]
  have hp : x ^ 8 ≤ (15708 / 10000) ^ 8 := pow_le_pow_left₀ h0 hx 8
  have hn : ((15708 : ℝ) / 10000) ^ 8 ≤ 4032 / 100 := by norm_num
  have := cos_ge_deg6 x h0
  have := cos_le_deg8 x h0
  constructor <;> linarith

/-- On the first quadrant `my_sin` lies below the sine by at most `1e-3`. -/
theorem Prog25.my_sin_error (x : ℝ) (h0 : 0 ≤ x) (h1 : x ≤ π / 2) :
    -(1 / 1000) ≤ Prog25.my_sin x - sin x ∧ Prog25.my_sin x - sin x ≤ 0 := by
  rw [Prog25.my_sin_of_reduced x h0 (Prog25.lt_twoPi_of_le_pi_div_two x h1)]
  have hx : x ≤ 15708 / 10000 := by linarith [pi_lt_d4]
  have hp : x ^ 9 ≤ (15708 / 10000) ^ 9 := pow_le_pow_left₀ h0 hx 9
  have hn : ((15708 : ℝ) / 10000) ^ 9 ≤ 36288 / 100 := by norm_num
  have := sin_ge_deg7 x h0
  have := sin_le_deg9 x h0
  constructor <;> linarith

/-- Claim C3, amended. For every real `x` with `0 ≤ x ≤ π/2`, `my_cos x` differs
from the true cosine of `x` by at most `1e-3` and `my_sin x` differs from the
true sine of `x` by at most `1e-3`, in both programs (exact real arithmetic). -/
theorem trig_accuracy_first_quadrant (x : ℝ) (h0 : 0 ≤ x) (h1 : x ≤ π / 2) :
    (|Prog25.my_cos x - cos x| ≤ 1 / 1000 ∧ |Prog25.my_sin x - sin x| ≤ 1 / 1000) ∧
    (|Prog24.my_cos x - cos x| ≤ 1 / 1000 ∧ |Prog24.my_sin x - sin x| ≤ 1 / 1000) := by
  have hc := Prog25.my_cos_error x h0 h1
  have hs := Prog25.my_sin_error x h0 h1
  rw [Prog24.my_cos_eq, Prog24.my_sin_eq]
  have c : |Prog25.my_cos x - cos x| ≤ 1 / 1000 := abs_le.mpr ⟨hc.1, by linarith [hc.2]⟩
  have s : |Prog25.my_sin x - sin x| ≤ 1 / 1000 := abs_le.mpr ⟨hs.1, by linarith [hs.2]⟩
  exact ⟨⟨c, s⟩, ⟨c, s⟩⟩

/-- Witness for the amended claim C3, at `x = 1`. -/
theorem trig_accuracy_first_quadrant_witness :
    ((0 : ℝ) ≤ 1 ∧ (1 : ℝ) ≤ π / 2) ∧
    (|Prog25.my_cos (1 : ℝ) - cos 1| ≤ 1 / 1000 ∧ |Prog25.my_sin (1 : ℝ) - sin 1| ≤ 1 / 1000) ∧
    (|Prog24.my_cos (1 : ℝ) - cos 1| ≤ 1 / 1000 ∧ |Prog24.my_sin (1 : ℝ) - sin 1| ≤ 1 / 1000) :=
  ⟨⟨by norm_num, by linarith [pi_gt_three]⟩,
    trig_accuracy_first_quadrant 1 (by norm_num) (by linarith [pi_gt_three])⟩

/-- Claim C3, counterexample. The real `x = 3` lies in `[0, 2π)` (and below the
constant `6.283185307`), where `my_cos 3 = -91/80` is below `-1`, so it differs
from the true cosine by more than `1e-3`. -/
theorem trig_accuracy_fails_at_three :
    ((0 : ℝ) ≤ 3 ∧ (3 : ℝ) < 2 * π ∧ (3 : ℝ) < Prog25.twoPi) ∧
    Prog25.my_cos (3 : ℝ) = -(91 / 80) ∧
    ¬ (|Prog25.my_cos (3 : ℝ) - cos 3| ≤ 1 / 1000 ∧ |Prog25.my_sin (3 : ℝ) - sin 3| ≤ 1 / 1000) := by
  have h3 : (3 : ℝ) < Prog25.twoPi := by unfold Prog25.twoPi; norm_num
  have hv : Prog25.my_cos (3 : ℝ) = -(91 / 80) := by
    rw [Prog25.my_cos_of_reduced 3 (by norm_num) h3]; norm_num
  refine ⟨⟨by norm_num, by linarith [pi_gt_three], h3⟩, hv, ?_⟩
  rintro ⟨hc, -⟩
  rw [hv] at hc
  have := (abs_le.mp hc).1
  linarith [neg_one_le_cos (3 : ℝ)]


/-- Claim C7 (circle at a quarter turn). At `phi = π/2` the approximations
satisfy `|my_cos(π/2)| ≤ 1e-3` and `|my_sin(π/2) - 1| ≤ 1e-3`, so for every
`radius_a` in `[20, 100]` the Circle position `(x, y)` before truncation
satisfies `|x - 300| ≤ 1e-3 * radius_a` and
`|y - (200 + radius_a)| ≤ 1e-3 * radius_a` (exact real arithmetic). -/
theorem circle_at_quarter_turn (s : Prog25.SharedData ℝ) (ht : s.trajectory_type = 0)
    (h20 : 20 ≤ s.a) (_h100 : s.a ≤ 100) :
    (|Prog25.my_cos (π / 2)| ≤ 1 / 1000 ∧ |Prog25.my_sin (π / 2) - 1| ≤ 1 / 1000) ∧
    |(Prog25.trajectory_xy s (π / 2)).1 - 300| ≤ 1 / 1000 * s.a ∧
    |(Prog25.trajectory_xy s (π / 2)).2 - (200 + s.a)| ≤ 1 / 1000 * s.a := by
  have hq : (0 : ℝ) ≤ π / 2 := by linarith [pi_pos]
  have hc := Prog25.my_cos_error (π / 2) hq le_rfl
  have hs := Prog25.my_sin_error (π / 2) hq le_rfl
  rw [cos_pi_div_two, sub_zero] at hc
  rw [sin_pi_div_two] at hs
  have c : |Prog25.my_cos (π / 2)| ≤ 1 / 1000 := abs_le.mpr ⟨hc.1, by linarith [hc.2]⟩
  have d : |Prog25.my_sin (π / 2) - 1| ≤ 1 / 1000 := abs_le.mpr ⟨hs.1, by linarith [hs.2]⟩
  have ha : (0 : ℝ) ≤ s.a := by linarith
  refine ⟨⟨c, d⟩, ?_, ?_⟩
  · unfold Prog25.trajectory_xy
    rw [if_pos ht]
    have e : s.a * Prog25.my_cos (π / 2) + 300 - 300 = s.a * Prog25.my_cos (π / 2) := by ring
    simp only [e, abs_mul, abs_of_nonneg ha]
    nlinarith [abs_nonneg (Prog25.my_cos (π / 2))]
  · unfold Prog25.trajectory_xy
    rw [if_pos ht]
    have e : s.a * Prog25.my_sin (π / 2) + 200 - (200 + s.a) =
        s.a * (Prog25.my_sin (π / 2) - 1) := by ring
    simp only [e, abs_mul, abs_of_nonneg ha]
    nlinarith [abs_nonneg (Prog25.my_sin (π / 2) - 1)]

/-- Witness for claim C7, at the default configuration. -/
theorem circle_at_quarter_turn_witness :
    ((Prog25.init_shared : Prog25.SharedData ℝ).trajectory_type = 0 ∧
      (20 : ℝ) ≤ (Prog25.init_shared : Prog25.SharedData ℝ).a ∧
      (Prog25.init_shared : Prog25.SharedData ℝ).a ≤ 100) ∧
    (|Prog25.my_cos (π / 2)| ≤ 1 / 1000 ∧ |Prog25.my_sin (π / 2) - 1| ≤ 1 / 1000) ∧
    |(Prog25.trajectory_xy (Prog25.init_shared : Prog25.SharedData ℝ) (π / 2)).1 - 300| ≤
      1 / 1000 * (Prog25.init_shared : Prog25.SharedData ℝ).a ∧
    |(Prog25.trajectory_xy (Prog25.init_shared : Prog25.SharedData ℝ) (π / 2)).2 -
        (200 + (Prog25.init_shared : Prog25.SharedData ℝ).a)| ≤
      1 / 1000 * (Prog25.init_shared : Prog25.SharedData ℝ).a :=
  ⟨⟨rfl, by simp only [Prog25.init_shared]; norm_num, by simp only [Prog25.init_shared]; norm_num⟩,
    circle_at_quarter_turn Prog25.init_shared rfl
      (by simp only [Prog25.init_shared]; norm_num) (by simp only [Prog25.init_shared]; norm_num)⟩

end Taylor

section PhaseZero

variable {K : Type} [LinearOrderedField K] [FloorRing K]

/-- The conversion to int of a float that lies in `[n, n + 1)` for a natural
`n` gives `n`. -/
theorem to_int_eq_of_mem (x : K) (n : ℕ) (h0 : (n : K) ≤ x) (h1 : x < n + 1) :
    to_int x = n := by
  have hx : 0 ≤ x := le_trans (Nat.cast_nonneg n) h0
  unfold to_int
  rw [if_pos hx]
  exact Int.floor_eq_iff.mpr ⟨by exact_mod_cast h0, by exact_mod_cast h1⟩

/-- The trajectory coordinates are the same in the two programs. -/
theorem Prog24.trajectory_xy_config (s : Prog25.SharedData K) (phi : K) :
    Prog24.trajectory_xy s.config phi = Prog25.trajectory_xy s phi := by
  unfold Prog24.trajectory_xy Prog25.trajectory_xy
  simp only [Prog24.my_cos_eq, Prog24.my_sin_eq, Prog25.SharedData.config]

/-- The arguments of `MoveTo` are the same in the two programs. -/
theorem Prog24.move_target_config (s : Prog25.SharedData K) (phi : K) :
    Prog24.move_target s.config phi = Prog25.move_target s phi := by
  unfold Prog24.move_target Prog25.move_target
  rw [Prog24.trajectory_xy_config]

/-- The phase update is the same in the two programs. -/
theorem Prog24.next_phi_config {K : Type} [LinearOrderedField K] (s : Prog25.SharedData K)
    (phi : K) : Prog24.next_phi s.config phi = Prog25.next_phi s phi := rfl

/-- Claim C5 (Heart witness). With `radius_a = 60`, `shape_b = 40`, the Heart
trajectory and `phi = 0` (whatever the speed and the running flag),
`my_sin(0) = 0` and `my_cos(0) = 1`, the trajectory step computes `x = 300`
exactly and `y = 200 - 5 * 40 / 13`, and the coordinates passed to `MoveTo`,
truncated toward zero, are `(300, 184)`; in both programs. -/
theorem heart_at_phase_zero (speed : K) (running : Int) :
    (Prog25.my_sin (0 : K) = 0 ∧ Prog25.my_cos (0 : K) = 1) ∧
    Prog25.trajectory_xy ⟨60, 40, speed, TrajectoryKind.Heart.code, running⟩ 0 =
      (300, 200 - 5 * 40 / 13) ∧
    Prog25.move_target ⟨60, 40, speed, TrajectoryKind.Heart.code, running⟩ 0 = (300, 184) ∧
    Prog25.move_trajectory_body ⟨60, 40, speed, TrajectoryKind.Heart.code, running⟩ 0 =
      (DrawCall.MoveTo 300 184 Handle.moving_obj,
        Prog25.next_phi ⟨60, 40, speed, TrajectoryKind.Heart.code, running⟩ 0) ∧
    Prog24.trajectory_xy ⟨60, 40, speed, TrajectoryKind.Heart.code⟩ 0 =
      (300, 200 - 5 * 40 / 13) ∧
    Prog24.move_target ⟨60, 40, speed, TrajectoryKind.Heart.code⟩ 0 = (300, 184) := by
  have hxy : Prog25.trajectory_xy ⟨60, 40, speed, TrajectoryKind.Heart.code, running⟩ 0 =
      ((300 : K), 200 - 5 * 40 / 13) := by
    unfold Prog25.trajectory_xy
    simp only [TrajectoryKind.code, mul_zero, Prog25.my_cos_zero, Prog25.my_sin_zero]
    norm_num
  have h300 : to_int (300 : K) = 300 := by
    have := to_int_eq_of_mem (300 : K) 300 (by norm_num) (by norm_num)
    simpa using this
  have h184 : to_int ((200 : K) - 5 * 40 / 13) = 184 := by
    have := to_int_eq_of_mem ((200 : K) - 5 * 40 / 13) 184 (by norm_num) (by norm_num)
    simpa using this
  have hmt : Prog25.move_target ⟨60, 40, speed, TrajectoryKind.Heart.code, running⟩ 0 =
      (300, 184) := by
    unfold Prog25.move_target
    rw [hxy, h300, h184]
  have e24 : (⟨60, 40, speed, TrajectoryKind.Heart.code⟩ : Prog24.SharedData K) =
      Prog25.SharedData.config ⟨60, 40, speed, TrajectoryKind.Heart.code, running⟩ := rfl
  refine ⟨⟨Prog25.my_sin_zero, Prog25.my_cos_zero⟩, hxy, hmt, ?_, ?_, ?_⟩
  · unfold Prog25.move_trajectory_body
    rw [hmt]
  · rw [e24, Prog24.trajectory_xy_config, hxy]
  · rw [e24, Prog24.move_target_config, hmt]

/-- The Circle position at phase zero in exact arithmetic: `x = 300 + a` and
`y = 200`, since the exact `my_cos 0 = 1` and `my_sin 0 = 0`. The step of the
program, in binary32 arithmetic, is `trajectory_xy_f32`. -/
theorem circle_at_phase_zero (a b speed : K) (running : Int) :
    (Prog25.my_cos (0 : K) = 1 ∧ Prog25.my_sin (0 : K) = 0) ∧
    Prog25.trajectory_xy ⟨a, b, speed, TrajectoryKind.Circle.code, running⟩ 0 = (300 + a, 200) ∧
    Prog25.move_target ⟨a, b, speed, TrajectoryKind.Circle.code, running⟩ 0 =
      (to_int (300 + a), 200) ∧
    Prog25.move_trajectory_body ⟨a, b, speed, TrajectoryKind.Circle.code, running⟩ 0 =
      (DrawCall.MoveTo (to_int (300 + a)) 200 Handle.moving_obj,
        Prog25.next_phi ⟨a, b, speed, TrajectoryKind.Circle.code, running⟩ 0) := by
  have hxy : Prog25.trajectory_xy ⟨a, b, speed, TrajectoryKind.Circle.code, running⟩ 0 =
      (300 + a, 200) := by
    unfold Prog25.trajectory_xy
    simp only [TrajectoryKind.code, if_true, Prog25.my_cos_zero, Prog25.my_sin_zero]
    rw [mul_one, mul_zero, zero_add, add_comm]
  have h200 : to_int (200 : K) = 200 := by
    have := to_int_eq_of_mem (200 : K) 200 (by norm_num) (by norm_num)
    simpa using this
  have hmt : Prog25.move_target ⟨a, b, speed, TrajectoryKind.Circle.code, running⟩ 0 =
      (to_int (300 + a), 200) := by
    unfold Prog25.move_target
    rw [hxy, h200]
  refine ⟨⟨Prog25.my_cos_zero, Prog25.my_sin_zero⟩, hxy, hmt, ?_⟩
  unfold Prog25.move_trajectory_body
  rw [hmt]

end PhaseZero

section Phase

variable {K : Type} [LinearOrderedField K]

/-- One phase update keeps the phase between `0` and the constant. -/
theorem Prog25.next_phi_bounds (s : Prog25.SharedData K) (phi : K) (hs : 0 ≤ s.speed)
    (h : 0 ≤ phi) : 0 ≤ Prog25.next_phi s phi ∧ Prog25.next_phi s phi ≤ Prog25.twoPi := by
  unfold Prog25.next_phi
  by_cases c : phi + s.speed > Prog25.twoPi
  · simp only [if_pos c]
    exact ⟨le_rfl, by unfold Prog25.twoPi; norm_num⟩
  · simp only [if_neg c]
    exact ⟨by linarith, not_lt.mp c⟩

/-- Any number of phase updates keep the phase between `0` and the constant. -/
theorem Prog25.foldl_next_phi_bounds (ticks : List (Prog25.SharedData K))
    (hs : ∀ s ∈ ticks, 0 ≤ s.speed) (phi : K) (h : 0 ≤ phi ∧ phi ≤ Prog25.twoPi) :
    0 ≤ ticks.foldl (fun phi shared => Prog25.next_phi shared phi) phi ∧
      ticks.foldl (fun phi shared => Prog25.next_phi shared phi) phi ≤ Prog25.twoPi := by
  induction ticks generalizing phi with
  | nil => exact h
  | cons s ss ih =>
    rw [List.foldl_cons]
    exact ih (fun t ht => hs t (List.mem_cons_of_mem _ ht)) _
      (Prog25.next_phi_bounds s phi (hs s (List.mem_cons_self _ _)) h.1)

/-- Ticks at a constant speed that do not carry the phase past the constant
add the speed each. -/
theorem Prog25.foldl_next_phi_replicate (s : Prog25.SharedData K) (n : ℕ) (phi : K)
    (h : phi + n * s.speed ≤ Prog25.twoPi) (hs : 0 ≤ s.speed) :
    (List.replicate n s).foldl (fun phi shared => Prog25.next_phi shared phi) phi =
      phi + n * s.speed := by
  induction n generalizing phi with
  | zero => simp
  | succ n ih =>
    rw [List.replicate_succ, List.foldl_cons]
    push_cast at h ⊢
    have hn : (0 : K) ≤ n * s.speed := mul_nonneg (Nat.cast_nonneg n) hs
    have e : Prog25.next_phi s phi = phi + s.speed := by
      unfold Prog25.next_phi
      simp only
      rw [if_neg]
      apply not_lt.mpr
      linarith
    rw [e, ih]
    · ring
    · linarith

/-- A sequence of speeds that are not all multiples of `0.005`: after 62 ticks
at speed `0.1` and one tick at speed `0.083185307`, all in `[0.005, 0.1]`, the
phase is the constant `6.283185307` itself, and the test
`phi > 6.283185307f` does not reset it. The key switch never sets such a
speed. -/
theorem phase_reaches_the_constant :
    (∀ s ∈ List.replicate 62 (⟨60, 40, 1 / 10, 0, 1⟩ : Prog25.SharedData ℚ) ++
        [⟨60, 40, 83185307 / 1000000000, 0, 1⟩], 5 / 1000 ≤ s.speed ∧ s.speed ≤ 1 / 10) ∧
    Prog25.phi_after (List.replicate 62 (⟨60, 40, 1 / 10, 0, 1⟩ : Prog25.SharedData ℚ) ++
        [⟨60, 40, 83185307 / 1000000000, 0, 1⟩]) = Prog25.twoPi ∧
    ¬ (Prog25.phi_after (List.replicate 62 (⟨60, 40, 1 / 10, 0, 1⟩ : Prog25.SharedData ℚ) ++
        [⟨60, 40, 83185307 / 1000000000, 0, 1⟩]) < Prog25.twoPi) := by
  have e : Prog25.phi_after (List.replicate 62 (⟨60, 40, 1 / 10, 0, 1⟩ : Prog25.SharedData ℚ) ++
        [⟨60, 40, 83185307 / 1000000000, 0, 1⟩]) = Prog25.twoPi := by
    unfold Prog25.phi_after
    rw [List.foldl_append, Prog25.foldl_next_phi_replicate]
    · simp only [List.foldl_cons, List.foldl_nil, Prog25.next_phi, Prog25.twoPi]
      norm_num
    · simp only [Prog25.twoPi]; norm_num
    · norm_num
  refine ⟨?_, e, ?_⟩
  · intro s hs
    rw [List.mem_append, List.mem_replicate, List.mem_singleton] at hs
    rcases hs with ⟨-, rfl⟩ | rfl <;> norm_num
  · rw [e]; exact lt_irrefl _

/-- The phase after a sequence of ticks is the same in the two programs. -/
theorem Prog24.phi_after_config (ticks : List (Prog25.SharedData K)) :
    Prog24.phi_after (ticks.map Prog25.SharedData.config) = Prog25.phi_after ticks := by
  unfold Prog24.phi_after Prog25.phi_after
  rw [List.foldl_map]
  rfl

/-- The phase never exceeds the constant `6.283185307`, which is below the
true `2π`: in real arithmetic the phase stays strictly below the true `2π`. -/
theorem Prog25.phi_after_lt_two_pi (ticks : List (Prog25.SharedData ℝ))
    (h : ∀ s ∈ ticks, 0 ≤ s.speed) : Prog25.phi_after ticks < 2 * Real.pi := by
  have hb := (Prog25.foldl_next_phi_bounds ticks h 0
    ⟨le_rfl, le_of_lt Prog25.twoPi_pos⟩).2
  have hc : (Prog25.twoPi : ℝ) < 2 * Real.pi := by
    have := Real.pi_gt_d20
    unfold Prog25.twoPi
    norm_num at this ⊢
    linarith
  exact lt_of_le_of_lt hb hc

/-- The key switch keeps the speed a multiple of `0.005`, from 1 to 20 times
it. -/
theorem Prog25.handle_key_speed_multiple (s : Prog25.SharedData K) (key : Int)
    (h : ∃ k : ℕ, 1 ≤ k ∧ k ≤ 20 ∧ s.speed = k * (5 / 1000)) :
    ∃ k : ℕ, 1 ≤ k ∧ k ≤ 20 ∧ (Prog25.handle_key s key).speed = k * (5 / 1000) := by
  obtain ⟨k, hk1, hk20, hk⟩ := h
  apply Prog25.handle_key_cases s key
    (fun r => ∃ k : ℕ, 1 ≤ k ∧ k ≤ 20 ∧ r.speed = k * (5 / 1000))
  · exact fun _ => ⟨k, hk1, hk20, hk⟩
  · exact fun _ => ⟨k, hk1, hk20, hk⟩
  · exact fun _ => ⟨k, hk1, hk20, hk⟩
  · exact fun _ => ⟨k, hk1, hk20, hk⟩
  · intro _
    rcases Nat.lt_or_ge k 20 with lt | ge
    · refine ⟨k + 1, by omega, by omega, ?_⟩
      have hle : (k : K) + 1 ≤ 20 := by exact_mod_cast lt
      show min (s.speed + 5 / 1000) (1 / 10) = _
      rw [hk, min_eq_left (by linarith)]
      push_cast
      ring
    · have e : k = 20 := by omega
      refine ⟨20, by omega, by omega, ?_⟩
      show min (s.speed + 5 / 1000) (1 / 10) = _
      rw [hk, e, min_eq_right (by norm_num)]
      norm_num
  · intro _
    rcases Nat.lt_or_ge 1 k with lt | ge
    · refine ⟨k - 1, by omega, by omega, ?_⟩
      have hle : (2 : K) ≤ k := by exact_mod_cast lt
      show max (s.speed - 5 / 1000) (5 / 1000) = _
      rw [hk, max_eq_left (by linarith), Nat.cast_sub (by omega)]
      push_cast
      ring
    · have e : k = 1 := by omega
      refine ⟨1, by omega, by omega, ?_⟩
      show max (s.speed - 5 / 1000) (5 / 1000) = _
      rw [hk, e, max_eq_right (by norm_num)]
      norm_num
  · exact fun _ => ⟨k, hk1, hk20, hk⟩
  · exact fun _ => ⟨k, hk1, hk20, hk⟩
  · exact fun _ => ⟨k, hk1, hk20, hk⟩
  · exact fun _ => ⟨k, hk1, hk20, hk⟩
  · exact fun _ => ⟨k, hk1, hk20, hk⟩

/-- After any sequence of keys from the defaults the speed is a multiple of
`0.005`, from 1 to 20 times it. -/
theorem Prog25.reachable_speed_multiple (keys : List Int) :
    ∃ k : ℕ, 1 ≤ k ∧ k ≤ 20 ∧
      (keys.foldl Prog25.handle_key (Prog25.init_shared : Prog25.SharedData K)).speed =
        k * (5 / 1000) := by
  have gen : ∀ (keys : List Int) (s : Prog25.SharedData K),
      (∃ k : ℕ, 1 ≤ k ∧ k ≤ 20 ∧ s.speed = k * (5 / 1000)) →
      ∃ k : ℕ, 1 ≤ k ∧ k ≤ 20 ∧ (keys.foldl Prog25.handle_key s).speed = k * (5 / 1000) := by
    intro keys
    induction keys with
    | nil => exact fun s h => h
    | cons key keys ih => exact fun s h => ih _ (Prog25.handle_key_speed_multiple s key h)
  exact gen keys _ ⟨4, by omega, by omega, by simp only [Prog25.init_shared]; norm_num⟩

/-- The constant `6.283185307` is no multiple of `0.005`. -/
theorem Prog25.twoPi_ne_multiple (j : ℕ) : (j : K) * (5 / 1000) ≠ Prog25.twoPi := by
  intro h
  unfold Prog25.twoPi at h
  have h2 : (j : K) * 5000000 = 6283185307 := by
    field_simp at h
    linarith
  have h3 : j * 5000000 = 6283185307 := by exact_mod_cast h2
  omega

/-- With speeds that are multiples of `0.005` the phase stays a multiple of
`0.005`. -/
theorem Prog25.foldl_next_phi_multiple (ticks : List (Prog25.SharedData K))
    (hs : ∀ s ∈ ticks, ∃ k : ℕ, s.speed = k * (5 / 1000)) (phi : K)
    (h : ∃ j : ℕ, phi = j * (5 / 1000)) :
    ∃ j : ℕ, ticks.foldl (fun phi shared => Prog25.next_phi shared phi) phi = j * (5 / 1000) := by
  induction ticks generalizing phi with
  | nil => exact h
  | cons s ss ih =>
    rw [List.foldl_cons]
    apply ih (fun t ht => hs t (List.mem_cons_of_mem _ ht))
    obtain ⟨j, hj⟩ := h
    obtain ⟨k, hk⟩ := hs s (List.mem_cons_self _ _)
    unfold Prog25.next_phi
    simp only
    split_ifs
    · exact ⟨0, by simp⟩
    · exact ⟨j + k, by rw [hj, hk]; push_cast; ring⟩

/-- With speeds that are nonnegative multiples of `0.005` the phase stays
strictly below the constant. -/
theorem Prog25.phi_after_lt_constant (ticks : List (Prog25.SharedData K))
    (hs : ∀ s ∈ ticks, ∃ k : ℕ, s.speed = k * (5 / 1000)) :
    0 ≤ Prog25.phi_after ticks ∧ Prog25.phi_after ticks < Prog25.twoPi := by
  have hnn : ∀ s ∈ ticks, 0 ≤ s.speed := by
    intro s h
    obtain ⟨k, hk⟩ := hs s h
    rw [hk]
    positivity
  have hc : (0 : K) < Prog25.twoPi := by unfold Prog25.twoPi; norm_num
  obtain ⟨h0, h1⟩ := Prog25.foldl_next_phi_bounds ticks hnn 0 ⟨le_rfl, hc.le⟩
  obtain ⟨j, hj⟩ := Prog25.foldl_next_phi_multiple ticks hs 0 ⟨0, by simp⟩
  refine ⟨h0, lt_of_le_of_ne h1 ?_⟩
  show List.foldl (fun phi shared => Prog25.next_phi shared phi) 0 ticks ≠ _
  rw [hj]
  exact Prog25.twoPi_ne_multiple j

/-- Claim C8 (phase invariant). The phase of the trajectory driver starts at
`0` and, for every sequence of per-tick speeds each lying in `[0.005, 0.1]`
among the values `shared.speed` takes (the multiples of `0.005`, which are
all the key switch produces from the default `0.02`), the value of `phi` at
the start of every tick (after any number of ticks) satisfies
`0 ≤ phi < 6.283185307`, in both programs (exact arithmetic). -/
theorem phase_stays_below_two_pi (ticks : List (Prog25.SharedData K))
    (h : ∀ s ∈ ticks, (5 / 1000 ≤ s.speed ∧ s.speed ≤ 1 / 10) ∧
      ∃ k : ℕ, s.speed = k * (5 / 1000)) :
    Prog25.phi_after ([] : List (Prog25.SharedData K)) = 0 ∧
    (0 ≤ Prog25.phi_after ticks ∧ Prog25.phi_after ticks < Prog25.twoPi) ∧
    (0 ≤ Prog24.phi_after (ticks.map Prog25.SharedData.config) ∧
      Prog24.phi_after (ticks.map Prog25.SharedData.config) < Prog24.twoPi) ∧
    (∀ keys : List Int,
      (5 / 1000 ≤ (keys.foldl Prog25.handle_key
          (Prog25.init_shared : Prog25.SharedData K)).speed ∧
        (keys.foldl Prog25.handle_key (Prog25.init_shared : Prog25.SharedData K)).speed ≤
          1 / 10) ∧
      ∃ k : ℕ, (keys.foldl Prog25.handle_key
          (Prog25.init_shared : Prog25.SharedData K)).speed = k * (5 / 1000)) := by
  have hb := Prog25.phi_after_lt_constant ticks (fun s hs => (h s hs).2)
  refine ⟨rfl, hb, ?_, ?_⟩
  · rw [Prog24.phi_after_config]
    exact hb
  · intro keys
    have hr : Prog25.in_range (keys.foldl Prog25.handle_key
        (Prog25.init_shared : Prog25.SharedData K)) := by
      apply Prog25.foldl_handle_key_in_range
      simp only [Prog25.in_range, Prog25.init_shared]
      norm_num
    obtain ⟨k, -, -, hk⟩ := @Prog25.reachable_speed_multiple K _ keys
    exact ⟨hr.2.2.1, k, hk⟩

/-- Witness for claim C8, on three ticks at the speeds `0.02`, `0.1` and
`0.005`. -/
theorem phase_stays_below_two_pi_witness :
    (∀ s ∈ [(⟨60, 40, 2 / 100, 0, 1⟩ : Prog25.SharedData ℚ), ⟨60, 40, 1 / 10, 0, 1⟩,
        ⟨60, 40, 5 / 1000, 0, 1⟩], (5 / 1000 ≤ s.speed ∧ s.speed ≤ 1 / 10) ∧
      ∃ k : ℕ, s.speed = k * (5 / 1000)) ∧
    0 ≤ Prog25.phi_after [(⟨60, 40, 2 / 100, 0, 1⟩ : Prog25.SharedData ℚ),
        ⟨60, 40, 1 / 10, 0, 1⟩, ⟨60, 40, 5 / 1000, 0, 1⟩] ∧
    Prog25.phi_after [(⟨60, 40, 2 / 100, 0, 1⟩ : Prog25.SharedData ℚ),
        ⟨60, 40, 1 / 10, 0, 1⟩, ⟨60, 40, 5 / 1000, 0, 1⟩] < Prog25.twoPi := by
  have hyp : ∀ s ∈ [(⟨60, 40, 2 / 100, 0, 1⟩ : Prog25.SharedData ℚ), ⟨60, 40, 1 / 10, 0, 1⟩,
      ⟨60, 40, 5 / 1000, 0, 1⟩], (5 / 1000 ≤ s.speed ∧ s.speed ≤ 1 / 10) ∧
      ∃ k : ℕ, s.speed = k * (5 / 1000) := by
    simp only [List.mem_cons, List.mem_singleton, List.not_mem_nil, or_false]
    rintro s (rfl | rfl | rfl)
    · exact ⟨by norm_num, 4, by norm_num⟩
    · exact ⟨by norm_num, 20, by norm_num⟩
    · exact ⟨by norm_num, 1, by norm_num⟩
  exact ⟨hyp, (phase_stays_below_two_pi _ hyp).2.1⟩

end Phase

section Shutdown

variable {K : Type} [LinearOrderedField K]

/-- No `case` of the key switch writes the field `running`. -/
theorem Prog25.handle_key_running (s : Prog25.SharedData K) (key : Int) :
    (Prog25.handle_key s key).running = s.running := by
  apply Prog25.handle_key_cases s key (fun r => r.running = s.running) <;> intro _ <;> rfl

/-- No sequence of keys changes the field `running`. -/
theorem Prog25.foldl_handle_key_running (keys : List Int) (s : Prog25.SharedData K) :
    (keys.foldl Prog25.handle_key s).running = s.running := by
  induction keys generalizing s with
  | nil => rfl
  | cons k ks ih => rw [List.foldl_cons, ih, Prog25.handle_key_running]

/-- The control loop does not exit while no ESC has been read. -/
theorem Prog25.control_loop_without_esc (keys : List Int) (key : Int) (s : Prog25.SharedData K)
    (hk : key ≠ 27) (hr : s.running ≠ 0) (h : 27 ∉ keys) :
    Prog25.control_loop keys key s = none := by
  induction keys generalizing key s with
  | nil => rw [Prog25.control_loop, if_pos ⟨hk, hr⟩]
  | cons k ks ih =>
    rw [Prog25.control_loop, if_pos ⟨hk, hr⟩]
    have hk27 : k ≠ 27 := fun e => h (by rw [e]; exact List.mem_cons_self _ _)
    exact ih k _ hk27 (by rw [Prog25.handle_key_running]; exact hr)
      (fun hm => h (List.mem_cons_of_mem _ hm))

/-- The control loop exits right after the first ESC, with the keys up to and
including it passed through the switch and the later keys unread. -/
theorem Prog25.control_loop_at_esc (pre post : List Int) (key : Int) (s : Prog25.SharedData K)
    (hk : key ≠ 27) (hr : s.running ≠ 0) (h : 27 ∉ pre) :
    Prog25.control_loop (pre ++ 27 :: post) key s =
      some (27, (pre ++ [27]).foldl Prog25.handle_key s, post) := by
  induction pre generalizing key s with
  | nil =>
    rw [List.nil_append, Prog25.control_loop, if_pos ⟨hk, hr⟩]
    cases post with
    | nil => rw [Prog25.control_loop, if_neg (fun c => c.1 rfl)]; rfl
    | cons p ps => rw [Prog25.control_loop, if_neg (fun c => c.1 rfl)]; rfl
  | cons k ks ih =>
    rw [List.cons_append, Prog25.control_loop, if_pos ⟨hk, hr⟩]
    have hk27 : k ≠ 27 := fun e => h (by rw [e]; exact List.mem_cons_self _ _)
    rw [ih k _ hk27 (by rw [Prog25.handle_key_running]; exact hr)
      (fun hm => h (List.mem_cons_of_mem _ hm))]
    rfl

/-- No scheduling step writes a nonzero value to `running` once it is zero. -/
theorem Prog25.step_running_zero [FloorRing K] (st : Prog25.State K) (ev : Prog25.Event)
    (h : st.shared.running = 0) : (Prog25.step st ev).shared.running = 0 := by
  cases ev with
  | main input =>
    unfold Prog25.step
    cases hpc : st.pc with
    | control =>
      simp only
      rw [if_neg (fun c => c.2 h)]
      rfl
    | joining =>
      simp only
      split_ifs <;> exact h
    | closed => exact h
  | ellipses c => unfold Prog25.step; simp only; split_ifs <;> exact h
  | pixels c => unfold Prog25.step; simp only; split_ifs <;> exact h
  | triangle c => unfold Prog25.step; simp only; split_ifs <;> exact h
  | trajectory => unfold Prog25.step; simp only; split_ifs <;> exact h

/-- No run writes a nonzero value to `running` once it is zero. -/
theorem Prog25.run_running_zero [FloorRing K] (evs : List Prog25.Event) (st : Prog25.State K)
    (h : st.shared.running = 0) : (Prog25.run st evs).shared.running = 0 := by
  induction evs generalizing st with
  | nil => exact h
  | cons e es ih => exact ih _ (Prog25.step_running_zero st e h)

/-- Claim C9 (shutdown flag, thread program). `running` is initialised to true
(1); no key processed by the control loop changes it; the control loop has not
exited while no ESC (27) has been read and exits right after the first ESC;
after the loop `running` is set to false (0); in every run of the program,
once `running` is false no later step of the main thread or of a worker sets
it back to true; and setting it to false again leaves the whole shared data
unchanged. -/
theorem shutdown_flag_monotone [FloorRing K] :
    ((Prog25.init_shared : Prog25.SharedData K).running = 1 ∧
      (Prog25.init_state : Prog25.State K).shared.running = 1) ∧
    (∀ (s : Prog25.SharedData K) (key : Int), (Prog25.handle_key s key).running = s.running) ∧
    ((∀ keys : List Int, 27 ∉ keys →
        Prog25.control_loop keys 0 (Prog25.init_shared : Prog25.SharedData K) = none) ∧
      (∀ pre post : List Int, 27 ∉ pre →
        Prog25.control_loop (pre ++ 27 :: post) 0 (Prog25.init_shared : Prog25.SharedData K) =
          some (27, (pre ++ [27]).foldl Prog25.handle_key Prog25.init_shared, post))) ∧
    ((∀ s : Prog25.SharedData K, (Prog25.stop_running s).running = 0) ∧
      (∀ pre post : List Int, 27 ∉ pre →
        (Prog25.main_shared (pre ++ 27 :: post) : Option (Prog25.SharedData K)) =
          some (Prog25.stop_running ((pre ++ [27]).foldl Prog25.handle_key Prog25.init_shared))) ∧
      (∀ (st : Prog25.State K) (input : Int), st.pc = Prog25.MainPc.control →
        ¬ (st.key ≠ 27 ∧ st.shared.running ≠ 0) →
        (Prog25.step st (Prog25.Event.main input)).shared.running = 0)) ∧
    ((∀ (st : Prog25.State K) (ev : Prog25.Event), st.shared.running = 0 →
        (Prog25.step st ev).shared.running = 0) ∧
      (∀ evs later : List Prog25.Event,
        (Prog25.run (Prog25.init_state : Prog25.State K) evs).shared.running = 0 →
        (Prog25.run (Prog25.init_state : Prog25.State K) (evs ++ later)).shared.running = 0)) ∧
    (∀ s : Prog25.SharedData K, Prog25.stop_running (Prog25.stop_running s) =
      Prog25.stop_running s) := by
  have h0 : (0 : Int) ≠ 27 := by decide
  have h1 : (Prog25.init_shared : Prog25.SharedData K).running ≠ 0 := by
    simp [Prog25.init_shared]
  refine ⟨⟨rfl, rfl⟩, Prog25.handle_key_running, ⟨?_, ?_⟩, ⟨fun _ => rfl, ?_, ?_⟩, ⟨?_, ?_⟩,
    fun _ => rfl⟩
  · exact fun keys h => Prog25.control_loop_without_esc keys 0 _ h0 h1 h
  · exact fun pre post h => Prog25.control_loop_at_esc pre post 0 _ h0 h1 h
  · intro pre post h
    unfold Prog25.main_shared
    rw [Prog25.control_loop_at_esc pre post 0 _ h0 h1 h]
    rfl
  · intro st input hpc hc
    unfold Prog25.step
    simp only [hpc]
    rw [if_neg hc]
    rfl
  · exact Prog25.step_running_zero
  · intro evs later h
    unfold Prog25.run at h ⊢
    rw [List.foldl_append]
    exact Prog25.run_running_zero later _ h

/-- Claim C10 (variant equivalence). The process program and the thread program
start from the same defaults `(60, 40, 0.02, Circle)` and, for every
configuration, every `phi` and every key code, the key switch of prog2.4 yields
the same four fields as that of prog2.5, the trajectory step yields the same
truncated `(x, y)`, the same drawing call and the same next `phi`, and
`my_cos` and `my_sin` of the two files are the same functions. -/
theorem variants_compute_the_same [FloorRing K] (s : Prog25.SharedData K) (phi : K)
    (key : Int) :
    ((Prog24.init_shared : Prog24.SharedData K) =
        (Prog25.init_shared : Prog25.SharedData K).config ∧
      (Prog24.init_shared : Prog24.SharedData K) =
        ⟨60, 40, 2 / 100, TrajectoryKind.Circle.code⟩) ∧
    Prog24.handle_key s.config key = (Prog25.handle_key s key).config ∧
    (Prog24.trajectory_xy s.config phi = Prog25.trajectory_xy s phi ∧
      Prog24.move_target s.config phi = Prog25.move_target s phi ∧
      Prog24.next_phi s.config phi = Prog25.next_phi s phi ∧
      Prog24.move_trajectory_body s.config phi = Prog25.move_trajectory_body s phi) ∧
    ((Prog24.my_cos : K → K) = Prog25.my_cos ∧ (Prog24.my_sin : K → K) = Prog25.my_sin) := by
  refine ⟨⟨rfl, rfl⟩, Prog24.handle_key_config s key,
    ⟨Prog24.trajectory_xy_config s phi, Prog24.move_target_config s phi, rfl, ?_⟩,
    ⟨funext Prog24.my_cos_eq, funext Prog24.my_sin_eq⟩⟩
  unfold Prog24.move_trajectory_body Prog25.move_trajectory_body
  rw [Prog24.move_target_config]
  rfl

end Shutdown

section Cancellation

variable {K : Type} [LinearOrderedField K] [FloorRing K]

/-- An iteration of a live worker thread that starts with `running` true draws
on its own handles and does not return. -/
theorem Prog25.step_worker_running (st : Prog25.State K) (ev : Prog25.Event) (w : Worker)
    (hw : ev.worker = some w) (hl : st.live w = true) (hr : st.shared.running ≠ 0) :
    (∃ new : List DrawCall, new ≠ [] ∧ (Prog25.step st ev).calls = st.calls ++ new ∧
      ∀ c ∈ new, c.obj.owner = w) ∧ (Prog25.step st ev).live w = true := by
  cases ev with
  | main input => simp [Prog25.Event.worker] at hw
  | ellipses c =>
    obtain rfl : Worker.ellipses = w := by simpa [Prog25.Event.worker] using hw
    simp only [Prog25.State.live] at hl
    simp only [Prog25.step, hl, if_true, if_pos hr, Prog25.State.live, and_true]
    exact ⟨_, by simp, rfl, by simp [DrawCall.obj, Handle.owner]⟩
  | pixels c =>
    obtain rfl : Worker.pixels = w := by simpa [Prog25.Event.worker] using hw
    simp only [Prog25.State.live] at hl
    simp only [Prog25.step, hl, if_true, if_pos hr, Prog25.State.live, and_true]
    exact ⟨_, by simp, rfl, by simp [DrawCall.obj, Handle.owner]⟩
  | triangle c =>
    obtain rfl : Worker.triangle = w := by simpa [Prog25.Event.worker] using hw
    simp only [Prog25.State.live] at hl
    simp only [Prog25.step, hl, if_true, if_pos hr, Prog25.State.live, and_true]
    exact ⟨_, by simp, rfl, by simp [DrawCall.obj, Handle.owner]⟩
  | trajectory =>
    obtain rfl : Worker.trajectory = w := by simpa [Prog25.Event.worker] using hw
    simp only [Prog25.State.live] at hl
    simp only [Prog25.step, hl, if_true, if_pos hr, Prog25.State.live, and_true]
    exact ⟨_, by simp, rfl, by simp [DrawCall.obj, Handle.owner, Prog25.move_trajectory_body]⟩

/-- An iteration of a live worker thread that starts with `running` false
makes no drawing call and returns. -/
theorem Prog25.step_worker_stopped (st : Prog25.State K) (ev : Prog25.Event) (w : Worker)
    (hw : ev.worker = some w) (hl : st.live w = true) (hr : st.shared.running = 0) :
    (Prog25.step st ev).calls = st.calls ∧ (Prog25.step st ev).live w = false := by
  cases ev with
  | main input => simp [Prog25.Event.worker] at hw
  | ellipses c =>
    obtain rfl : Worker.ellipses = w := by simpa [Prog25.Event.worker] using hw
    simp only [Prog25.State.live] at hl
    simp [Prog25.step, hl, hr, Prog25.State.live]
  | pixels c =>
    obtain rfl : Worker.pixels = w := by simpa [Prog25.Event.worker] using hw
    simp only [Prog25.State.live] at hl
    simp [Prog25.step, hl, hr, Prog25.State.live]
  | triangle c =>
    obtain rfl : Worker.triangle = w := by simpa [Prog25.Event.worker] using hw
    simp only [Prog25.State.live] at hl
    simp [Prog25.step, hl, hr, Prog25.State.live]
  | trajectory =>
    obtain rfl : Worker.trajectory = w := by simpa [Prog25.Event.worker] using hw
    simp only [Prog25.State.live] at hl
    simp [Prog25.step, hl, hr, Prog25.State.live]

/-- A step of a worker thread that has returned changes nothing. -/
theorem Prog25.step_worker_returned (st : Prog25.State K) (ev : Prog25.Event) (w : Worker)
    (hw : ev.worker = some w) (hl : st.live w = false) : Prog25.step st ev = st := by
  cases ev with
  | main input => simp [Prog25.Event.worker] at hw
  | ellipses c =>
    obtain rfl : Worker.ellipses = w := by simpa [Prog25.Event.worker] using hw
    simp only [Prog25.State.live] at hl
    simp [Prog25.step, hl]
  | pixels c =>
    obtain rfl : Worker.pixels = w := by simpa [Prog25.Event.worker] using hw
    simp only [Prog25.State.live] at hl
    simp [Prog25.step, hl]
  | triangle c =>
    obtain rfl : Worker.triangle = w := by simpa [Prog25.Event.worker] using hw
    simp only [Prog25.State.live] at hl
    simp [Prog25.step, hl]
  | trajectory =>
    obtain rfl : Worker.trajectory = w := by simpa [Prog25.Event.worker] using hw
    simp only [Prog25.State.live] at hl
    simp [Prog25.step, hl]

/-- A step of the main thread makes no drawing call and ends no worker. -/
theorem Prog25.step_main_calls_live (st : Prog25.State K) (input : Int) :
    (Prog25.step st (Prog25.Event.main input)).calls = st.calls ∧
    ∀ w, (Prog25.step st (Prog25.Event.main input)).live w = st.live w := by
  unfold Prog25.step
  cases hpc : st.pc with
  | control =>
    simp only
    split_ifs <;> exact ⟨rfl, fun w => by cases w <;> rfl⟩
  | joining =>
    simp only
    split_ifs <;> exact ⟨rfl, fun w => by cases w <;> rfl⟩
  | closed => exact ⟨rfl, fun w => rfl⟩

/-- The calls of one worker in a log extended by calls of another worker. -/
theorem calls_of_append_other (w v : Worker) (calls new : List DrawCall) (h : w ≠ v)
    (hn : ∀ c ∈ new, c.obj.owner = v) : calls_of w (calls ++ new) = calls_of w calls := by
  unfold calls_of
  rw [List.filter_append]
  have : new.filter (fun c => decide (c.obj.owner = w)) = [] := by
    rw [List.filter_eq_nil_iff]
    intro c hc
    rw [hn c hc]
    simpa using fun e => h e.symm
  rw [this, List.append_nil]

/-- A step of a worker thread appends calls on its own handles only and leaves
the other workers as they are. -/
theorem Prog25.step_worker_frame (st : Prog25.State K) (ev : Prog25.Event) (v : Worker)
    (hv : ev.worker = some v) :
    (∃ new : List DrawCall, (Prog25.step st ev).calls = st.calls ++ new ∧
      ∀ c ∈ new, c.obj.owner = v) ∧
    ∀ w, w ≠ v → (Prog25.step st ev).live w = st.live w := by
  cases ev with
  | main input => simp [Prog25.Event.worker] at hv
  | ellipses c =>
    obtain rfl : Worker.ellipses = v := by simpa [Prog25.Event.worker] using hv
    unfold Prog25.step
    simp only
    split_ifs
    · exact ⟨⟨_, rfl, by simp [DrawCall.obj, Handle.owner]⟩, fun w _ => by cases w <;> rfl⟩
    · exact ⟨⟨[], by simp, by simp⟩, fun w hw => by cases w <;> first | rfl | exact absurd rfl hw⟩
    · exact ⟨⟨[], by simp, by simp⟩, fun w _ => rfl⟩
  | pixels c =>
    obtain rfl : Worker.pixels = v := by simpa [Prog25.Event.worker] using hv
    unfold Prog25.step
    simp only
    split_ifs
    · exact ⟨⟨_, rfl, by simp [DrawCall.obj, Handle.owner]⟩, fun w _ => by cases w <;> rfl⟩
    · exact ⟨⟨[], by simp, by simp⟩, fun w hw => by cases w <;> first | rfl | exact absurd rfl hw⟩
    · exact ⟨⟨[], by simp, by simp⟩, fun w _ => rfl⟩
  | triangle c =>
    obtain rfl : Worker.triangle = v := by simpa [Prog25.Event.worker] using hv
    unfold Prog25.step
    simp only
    split_ifs
    · exact ⟨⟨_, rfl, by simp [DrawCall.obj, Handle.owner]⟩, fun w _ => by cases w <;> rfl⟩
    · exact ⟨⟨[], by simp, by simp⟩, fun w hw => by cases w <;> first | rfl | exact absurd rfl hw⟩
    · exact ⟨⟨[], by simp, by simp⟩, fun w _ => rfl⟩
  | trajectory =>
    obtain rfl : Worker.trajectory = v := by simpa [Prog25.Event.worker] using hv
    unfold Prog25.step
    simp only
    split_ifs
    · exact ⟨⟨_, rfl, by simp [DrawCall.obj, Handle.owner, Prog25.move_trajectory_body]⟩,
        fun w _ => by cases w <;> rfl⟩
    · exact ⟨⟨[], by simp, by simp⟩, fun w hw => by cases w <;> first | rfl | exact absurd rfl hw⟩
    · exact ⟨⟨[], by simp, by simp⟩, fun w _ => rfl⟩

/-- A worker thread stops being live only in its own step, and only when that
step finds `running` false. -/
theorem Prog25.step_live_ends_by_flag (st : Prog25.State K) (ev : Prog25.Event) (w : Worker)
    (hl : st.live w = true) (hd : (Prog25.step st ev).live w = false) :
    ev.worker = some w ∧ st.shared.running = 0 := by
  cases hv : ev.worker with
  | none =>
    cases ev with
    | main input =>
      rw [(Prog25.step_main_calls_live st input).2 w, hl] at hd
      exact absurd hd (by decide)
    | ellipses c => simp [Prog25.Event.worker] at hv
    | pixels c => simp [Prog25.Event.worker] at hv
    | triangle c => simp [Prog25.Event.worker] at hv
    | trajectory => simp [Prog25.Event.worker] at hv
  | some v =>
    by_cases e : w = v
    · subst e
      refine ⟨rfl, ?_⟩
      by_contra hr
      rw [(Prog25.step_worker_running st ev w hv hl hr).2] at hd
      exact absurd hd (by decide)
    · rw [(Prog25.step_worker_frame st ev v hv).2 w e, hl] at hd
      exact absurd hd (by decide)

/-- A worker thread that has returned stays returned and no later step makes a
drawing call on its handles. -/
theorem Prog25.run_returned_silent (evs : List Prog25.Event) (st : Prog25.State K) (w : Worker)
    (hl : st.live w = false) :
    (Prog25.run st evs).live w = false ∧
      calls_of w (Prog25.run st evs).calls = calls_of w st.calls := by
  induction evs generalizing st with
  | nil => exact ⟨hl, rfl⟩
  | cons ev evs ih =>
    have key : (Prog25.step st ev).live w = false ∧
        calls_of w (Prog25.step st ev).calls = calls_of w st.calls := by
      cases hv : ev.worker with
      | none =>
        cases ev with
        | main input =>
          obtain ⟨hc, hlive⟩ := Prog25.step_main_calls_live st input
          rw [hc, hlive w]
          exact ⟨hl, rfl⟩
        | ellipses c => simp [Prog25.Event.worker] at hv
        | pixels c => simp [Prog25.Event.worker] at hv
        | triangle c => simp [Prog25.Event.worker] at hv
        | trajectory => simp [Prog25.Event.worker] at hv
      | some v =>
        by_cases e : w = v
        · subst e
          rw [Prog25.step_worker_returned st ev w hv hl]
          exact ⟨hl, rfl⟩
        · obtain ⟨⟨new, hc, hn⟩, hlive⟩ := Prog25.step_worker_frame st ev v hv
          rw [hlive w e, hc, calls_of_append_other w v _ _ e hn]
          exact ⟨hl, rfl⟩
    obtain ⟨h1, h2⟩ := ih (Prog25.step st ev) key.1
    exact ⟨h1, h2.trans key.2⟩

/-- A live worker process draws on its own handles in every step it takes,
whatever the state, and stays live. -/
theorem Prog24.step_worker_draws (st : Prog24.State K) (ev : Prog24.Event) (w : Worker)
    (hw : ev.worker = some w) (hl : st.live w = true) :
    (∃ new : List DrawCall, new ≠ [] ∧ (Prog24.step st ev).calls = st.calls ++ new ∧
      ∀ c ∈ new, c.obj.owner = w) ∧ (Prog24.step st ev).live w = true := by
  cases ev with
  | main input => simp [Prog24.Event.worker] at hw
  | ellipses c =>
    obtain rfl : Worker.ellipses = w := by simpa [Prog24.Event.worker] using hw
    simp only [Prog24.State.live] at hl
    simp only [Prog24.step, hl, if_true, Prog24.State.live, and_true]
    exact ⟨_, by simp, rfl, by simp [DrawCall.obj, Handle.owner]⟩
  | pixels c =>
    obtain rfl : Worker.pixels = w := by simpa [Prog24.Event.worker] using hw
    simp only [Prog24.State.live] at hl
    simp only [Prog24.step, hl, if_true, Prog24.State.live, and_true]
    exact ⟨_, by simp, rfl, by simp [DrawCall.obj, Handle.owner]⟩
  | triangle c =>
    obtain rfl : Worker.triangle = w := by simpa [Prog24.Event.worker] using hw
    simp only [Prog24.State.live] at hl
    simp only [Prog24.step, hl, if_true, Prog24.State.live, and_true]
    exact ⟨_, by simp, rfl, by simp [DrawCall.obj, Handle.owner]⟩
  | trajectory =>
    obtain rfl : Worker.trajectory = w := by simpa [Prog24.Event.worker] using hw
    simp only [Prog24.State.live] at hl
    simp only [Prog24.step, hl, if_true, Prog24.State.live, and_true]
    exact ⟨_, by simp, rfl, by simp [DrawCall.obj, Handle.owner, Prog24.move_trajectory_body]⟩

/-- A worker process stops being live only in a step of the parent, the one
that runs the `kill` addressed to it. -/
theorem Prog24.step_live_ends_by_kill (st : Prog24.State K) (ev : Prog24.Event) (w : Worker)
    (hl : st.live w = true) (hd : (Prog24.step st ev).live w = false) :
    ev.worker = none ∧
      ((st.pc = Prog24.MainPc.control ∧ st.key = 27 ∧ w = Worker.ellipses) ∨
        (st.pc = Prog24.MainPc.kill_pixels ∧ w = Worker.pixels) ∨
        (st.pc = Prog24.MainPc.kill_triangle ∧ w = Worker.triangle) ∨
        (st.pc = Prog24.MainPc.kill_trajectory ∧ w = Worker.trajectory)) := by
  cases ev with
  | main input =>
    refine ⟨rfl, ?_⟩
    unfold Prog24.step at hd
    cases hpc : st.pc with
    | control =>
      simp only [hpc] at hd
      by_cases hk : st.key ≠ 27
      · rw [if_pos hk] at hd
        cases w <;> simp_all [Prog24.State.live]
      · rw [if_neg hk] at hd
        cases w <;> simp_all [Prog24.State.live]
    | kill_pixels =>
      simp only [hpc] at hd
      cases w <;> simp_all [Prog24.State.live]
    | kill_triangle =>
      simp only [hpc] at hd
      cases w <;> simp_all [Prog24.State.live]
    | kill_trajectory =>
      simp only [hpc] at hd
      cases w <;> simp_all [Prog24.State.live]
    | reaping =>
      simp only [hpc] at hd
      split_ifs at hd <;> cases w <;> simp_all [Prog24.State.live]
    | closed =>
      simp only [hpc] at hd
      cases w <;> simp_all [Prog24.State.live]
  | ellipses c =>
    unfold Prog24.step at hd
    simp only at hd
    split_ifs at hd <;> cases w <;> simp_all [Prog24.State.live]
  | pixels c =>
    unfold Prog24.step at hd
    simp only at hd
    split_ifs at hd <;> cases w <;> simp_all [Prog24.State.live]
  | triangle c =>
    unfold Prog24.step at hd
    simp only at hd
    split_ifs at hd <;> cases w <;> simp_all [Prog24.State.live]
  | trajectory =>
    unfold Prog24.step at hd
    simp only at hd
    split_ifs at hd <;> cases w <;> simp_all [Prog24.State.live]


/-- A step of the thread program makes a drawing call only if it is the step
of a live worker that starts with `running` true. -/
theorem Prog25.step_draws_only_if_running (st : Prog25.State K) (ev : Prog25.Event)
    (h : (Prog25.step st ev).calls ≠ st.calls) :
    ∃ w, ev.worker = some w ∧ st.live w = true ∧ st.shared.running ≠ 0 := by
  cases hv : ev.worker with
  | none =>
    cases ev with
    | main input => exact absurd (Prog25.step_main_calls_live st input).1 h
    | ellipses c => simp [Prog25.Event.worker] at hv
    | pixels c => simp [Prog25.Event.worker] at hv
    | triangle c => simp [Prog25.Event.worker] at hv
    | trajectory => simp [Prog25.Event.worker] at hv
  | some w =>
    refine ⟨w, rfl, ?_⟩
    cases hl : st.live w with
    | false =>
      rw [Prog25.step_worker_returned st ev w hv hl] at h
      exact absurd rfl h
    | true =>
      refine ⟨rfl, fun hr => ?_⟩
      exact absurd (Prog25.step_worker_stopped st ev w hv hl hr).1 h

/-- Claim C11, counterexample. In the process program, after the parent has
read ESC the ellipses process is still live; the next step of the parent
(leaving the control loop and running `kill(proc1, SIGTERM)`) ends it, though
this step is no step of the worker and the worker has tested no flag; and the
pixels process, not yet killed, still draws after that. -/
theorem process_worker_ended_by_kill :
    (Prog24.run (Prog24.init_state : Prog24.State ℚ) [Prog24.Event.main 27]).live
        Worker.ellipses = true ∧
    (Prog24.Event.main 0).worker = none ∧
    (Prog24.run (Prog24.init_state : Prog24.State ℚ)
        [Prog24.Event.main 27, Prog24.Event.main 0]).live Worker.ellipses = false ∧
    (Prog24.run (Prog24.init_state : Prog24.State ℚ)
        [Prog24.Event.main 27, Prog24.Event.main 0]).calls = [] ∧
    (Prog24.run (Prog24.init_state : Prog24.State ℚ)
        [Prog24.Event.main 27, Prog24.Event.main 0, Prog24.Event.pixels 7]).calls =
      [DrawCall.SetColor Handle.pix1 7, DrawCall.SetColor Handle.pix2 7,
        DrawCall.SetColor Handle.pix3 7] := by
  simp [Prog24.run, Prog24.step, Prog24.init_state, Prog24.State.live, Prog24.Event.worker]

/-- One step of the process program keeps these facts: outside the control
loop the last key read is ESC; if the last key read is ESC then ESC was read
in a step of the parent; a worker process that is not live was ended outside
the control loop. -/
theorem Prog24.step_esc_inv (st : Prog24.State K) (evs : List Prog24.Event) (ev : Prog24.Event)
    (h : (st.pc ≠ Prog24.MainPc.control → st.key = 27) ∧
      (st.key = 27 → Prog24.Event.main 27 ∈ evs) ∧
      (∀ w, st.live w = false → st.pc ≠ Prog24.MainPc.control)) :
    ((Prog24.step st ev).pc ≠ Prog24.MainPc.control → (Prog24.step st ev).key = 27) ∧
      ((Prog24.step st ev).key = 27 → Prog24.Event.main 27 ∈ evs ++ [ev]) ∧
      (∀ w, (Prog24.step st ev).live w = false →
        (Prog24.step st ev).pc ≠ Prog24.MainPc.control) := by
  obtain ⟨h1, h2, h3⟩ := h
  have mem : ∀ {e : Prog24.Event}, e ∈ evs → e ∈ evs ++ [ev] :=
    fun he => List.mem_append_left _ he
  cases ev with
  | main input =>
    unfold Prog24.step
    cases hpc : st.pc with
    | control =>
      simp only
      by_cases hk : st.key ≠ 27
      · rw [if_pos hk]
        refine ⟨fun c => absurd rfl c, fun e => ?_, fun w hw => ?_⟩
        · simp only at e
          rw [e]
          exact List.mem_append_right _ (List.mem_singleton_self _)
        · exact absurd hpc (h3 w (by cases w <;> exact hw))
      · rw [if_neg hk]
        have hk' : st.key = 27 := not_not.mp hk
        exact ⟨fun _ => hk', fun _ => mem (h2 hk'), fun w _ => by simp⟩
    | kill_pixels =>
      have hk := h1 (by rw [hpc]; simp)
      exact ⟨fun _ => hk, fun _ => mem (h2 hk), fun w _ => by simp⟩
    | kill_triangle =>
      have hk := h1 (by rw [hpc]; simp)
      exact ⟨fun _ => hk, fun _ => mem (h2 hk), fun w _ => by simp⟩
    | kill_trajectory =>
      have hk := h1 (by rw [hpc]; simp)
      exact ⟨fun _ => hk, fun _ => mem (h2 hk), fun w _ => by simp⟩
    | reaping =>
      have hk := h1 (by rw [hpc]; simp)
      simp only
      split_ifs
      · exact ⟨fun _ => hk, fun _ => mem (h2 hk), fun w _ => by rw [hpc]; simp⟩
      · exact ⟨fun _ => hk, fun _ => mem (h2 hk), fun w _ => by simp⟩
    | closed =>
      have hk := h1 (by rw [hpc]; simp)
      exact ⟨fun _ => hk, fun _ => mem (h2 hk), fun w _ => by rw [hpc]; simp⟩
  | ellipses c =>
    unfold Prog24.step
    simp only
    split_ifs
    · exact ⟨h1, fun e => mem (h2 e), fun w hw => h3 w (by cases w <;> exact hw)⟩
    · exact ⟨h1, fun e => mem (h2 e), h3⟩
  | pixels c =>
    unfold Prog24.step
    simp only
    split_ifs
    · exact ⟨h1, fun e => mem (h2 e), fun w hw => h3 w (by cases w <;> exact hw)⟩
    · exact ⟨h1, fun e => mem (h2 e), h3⟩
  | triangle c =>
    unfold Prog24.step
    simp only
    split_ifs
    · exact ⟨h1, fun e => mem (h2 e), fun w hw => h3 w (by cases w <;> exact hw)⟩
    · exact ⟨h1, fun e => mem (h2 e), h3⟩
  | trajectory =>
    unfold Prog24.step
    simp only
    split_ifs
    · exact ⟨h1, fun e => mem (h2 e), fun w hw => h3 w (by cases w <;> exact hw)⟩
    · exact ⟨h1, fun e => mem (h2 e), h3⟩

/-- In every run of the process program: outside the control loop the last
key read is ESC, read in a step of the parent, and a worker process that is
not live was ended outside the control loop. -/
theorem Prog24.run_esc_inv (evs : List Prog24.Event) :
    ((Prog24.run (Prog24.init_state : Prog24.State K) evs).pc ≠ Prog24.MainPc.control →
        (Prog24.run (Prog24.init_state : Prog24.State K) evs).key = 27) ∧
      ((Prog24.run (Prog24.init_state : Prog24.State K) evs).key = 27 →
        Prog24.Event.main 27 ∈ evs) ∧
      (∀ w, (Prog24.run (Prog24.init_state : Prog24.State K) evs).live w = false →
        (Prog24.run (Prog24.init_state : Prog24.State K) evs).pc ≠ Prog24.MainPc.control) := by
  induction evs using List.reverseRecOn with
  | nil =>
    refine ⟨fun c => absurd rfl c, fun e => ?_, fun w hw => ?_⟩
    · exact absurd e (by simp [Prog24.run, Prog24.init_state])
    · cases w <;> simp [Prog24.run, Prog24.init_state, Prog24.State.live] at hw
  | append_singleton evs ev ih =>
    have e : Prog24.run (Prog24.init_state : Prog24.State K) (evs ++ [ev]) =
        Prog24.step (Prog24.run Prog24.init_state evs) ev := by
      unfold Prog24.run
      rw [List.foldl_append]
      rfl
    rw [e]
    exact Prog24.step_esc_inv _ evs ev ih

/-- Claim C11, amended. In the thread program every periodic colour worker and
the trajectory worker tests `running` at the top of every loop iteration: an
iteration of a live worker that starts with `running` true makes its drawing
calls (on its own handles) and goes on, one that starts with `running` false
makes no drawing call and returns, a step makes a drawing call only if
`running` was true when it began, a worker that has returned makes no further
drawing call in any run, and a worker stops being live only in its own step
that finds `running` false. In the process program there is no flag: every
step of a live worker process draws, and a worker process stops being live
only in the step of the parent that runs the `kill` addressed to it; in every
run from the start this step comes after the control loop has read ESC (the
last key read is 27 and a step of the parent read it), and whenever a worker
process is not live the parent has left the control loop. -/
theorem workers_end_by_flag_in_threads_by_kill_in_processes :
    (∀ (st : Prog25.State K) (ev : Prog25.Event) (w : Worker), ev.worker = some w →
      (st.live w = true → st.shared.running ≠ 0 →
        (∃ new : List DrawCall, new ≠ [] ∧ (Prog25.step st ev).calls = st.calls ++ new ∧
          ∀ c ∈ new, c.obj.owner = w) ∧ (Prog25.step st ev).live w = true) ∧
      (st.live w = true → st.shared.running = 0 →
        (Prog25.step st ev).calls = st.calls ∧ (Prog25.step st ev).live w = false) ∧
      (st.live w = false → Prog25.step st ev = st)) ∧
    (∀ (st : Prog25.State K) (ev : Prog25.Event), (Prog25.step st ev).calls ≠ st.calls →
      ∃ w, ev.worker = some w ∧ st.live w = true ∧ st.shared.running ≠ 0) ∧
    (∀ (st : Prog25.State K) (evs : List Prog25.Event) (w : Worker), st.live w = false →
      (Prog25.run st evs).live w = false ∧
        calls_of w (Prog25.run st evs).calls = calls_of w st.calls) ∧
    (∀ (st : Prog25.State K) (ev : Prog25.Event) (w : Worker), st.live w = true →
      (Prog25.step st ev).live w = false → ev.worker = some w ∧ st.shared.running = 0) ∧
    (∀ (st : Prog24.State K) (ev : Prog24.Event) (w : Worker), ev.worker = some w →
      st.live w = true →
      (∃ new : List DrawCall, new ≠ [] ∧ (Prog24.step st ev).calls = st.calls ++ new ∧
        ∀ c ∈ new, c.obj.owner = w) ∧ (Prog24.step st ev).live w = true) ∧
    (∀ (st : Prog24.State K) (ev : Prog24.Event) (w : Worker), st.live w = true →
      (Prog24.step st ev).live w = false →
      ev.worker = none ∧
        ((st.pc = Prog24.MainPc.control ∧ st.key = 27 ∧ w = Worker.ellipses) ∨
          (st.pc = Prog24.MainPc.kill_pixels ∧ w = Worker.pixels) ∨
          (st.pc = Prog24.MainPc.kill_triangle ∧ w = Worker.triangle) ∨
          (st.pc = Prog24.MainPc.kill_trajectory ∧ w = Worker.trajectory))) ∧
    (∀ (evs : List Prog24.Event) (ev : Prog24.Event) (w : Worker),
      (Prog24.run (Prog24.init_state : Prog24.State K) evs).live w = true →
      (Prog24.step (Prog24.run (Prog24.init_state : Prog24.State K) evs) ev).live w = false →
      ev.worker = none ∧
        (Prog24.run (Prog24.init_state : Prog24.State K) evs).key = 27 ∧
        Prog24.Event.main 27 ∈ evs) ∧
    (∀ (evs : List Prog24.Event) (w : Worker),
      (Prog24.run (Prog24.init_state : Prog24.State K) evs).live w = false →
      (Prog24.run (Prog24.init_state : Prog24.State K) evs).pc ≠ Prog24.MainPc.control ∧
        (Prog24.run (Prog24.init_state : Prog24.State K) evs).key = 27 ∧
        Prog24.Event.main 27 ∈ evs) :=
  ⟨fun st ev w hw =>
      ⟨fun hl hr => Prog25.step_worker_running st ev w hw hl hr,
        fun hl hr => Prog25.step_worker_stopped st ev w hw hl hr,
        fun hl => Prog25.step_worker_returned st ev w hw hl⟩,
    Prog25.step_draws_only_if_running,
    fun st evs w hl => Prog25.run_returned_silent evs st w hl,
    Prog25.step_live_ends_by_flag,
    Prog24.step_worker_draws,
    Prog24.step_live_ends_by_kill,
    fun evs ev w hl hd => by
      obtain ⟨i1, i2, -⟩ := @Prog24.run_esc_inv K _ _ evs
      obtain ⟨hn, hpc⟩ := Prog24.step_live_ends_by_kill _ ev w hl hd
      have hk : (Prog24.run (Prog24.init_state : Prog24.State K) evs).key = 27 := by
        rcases hpc with ⟨-, hk, -⟩ | ⟨hp, -⟩ | ⟨hp, -⟩ | ⟨hp, -⟩
        · exact hk
        · exact i1 (by rw [hp]; simp)
        · exact i1 (by rw [hp]; simp)
        · exact i1 (by rw [hp]; simp)
      exact ⟨hn, hk, i2 hk⟩,
    fun evs w hl => by
      obtain ⟨i1, i2, i3⟩ := @Prog24.run_esc_inv K _ _ evs
      exact ⟨i3 w hl, i1 (i3 w hl), i2 (i1 (i3 w hl))⟩⟩

end Cancellation

section Stores

variable {K : Type} [LinearOrderedField K]

/-- The two statements of a `case`, run one after the other, are the `case` of
the key switch. -/
theorem Prog25.clamp_store_key_store (s : Prog25.SharedData K) (key : Int) :
    Prog25.clamp_store (Prog25.key_store s key).1 (Prog25.key_store s key).2 =
      Prog25.handle_key s key := by
  unfold Prog25.key_store Prog25.handle_key
  by_cases c1 : key = 119 ∨ key = 87
  · simp only [if_pos c1, Prog25.clamp_store]
  simp only [if_neg c1]
  by_cases c2 : key = 115 ∨ key = 83
  · simp only [if_pos c2, Prog25.clamp_store]
  simp only [if_neg c2]
  by_cases c3 : key = 97 ∨ key = 65
  · simp only [if_pos c3, Prog25.clamp_store]
  simp only [if_neg c3]
  by_cases c4 : key = 100 ∨ key = 68
  · simp only [if_pos c4, Prog25.clamp_store]
  simp only [if_neg c4]
  by_cases c5 : key = 43
  · simp only [if_pos c5, Prog25.clamp_store]
  simp only [if_neg c5]
  by_cases c6 : key = 45
  · simp only [if_pos c6, Prog25.clamp_store]
  simp only [if_neg c6]
  by_cases c7 : key = 49
  · simp only [if_pos c7, Prog25.clamp_store]
  simp only [if_neg c7]
  by_cases c8 : key = 50
  · simp only [if_pos c8, Prog25.clamp_store]
  simp only [if_neg c8]
  by_cases c9 : key = 51
  · simp only [if_pos c9, Prog25.clamp_store]
  simp only [if_neg c9]
  by_cases c10 : key = 52
  · simp only [if_pos c10, Prog25.clamp_store]
  simp only [if_neg c10, Prog25.clamp_store]

/-- The clamp ranges lie inside the widened ranges. -/
theorem Prog25.wide_range_of_in_range (s : Prog25.SharedData K) (h : Prog25.in_range s) :
    Prog25.wide_range s := by
  obtain ⟨⟨ha1, ha2⟩, ⟨hb1, hb2⟩, ⟨hs1, hs2⟩, ht⟩ := h
  refine ⟨⟨?_, ?_⟩, ⟨?_, ?_⟩, ⟨?_, ?_⟩, ht⟩ <;> linarith

/-- The first store of a `case`, made on a configuration within the clamp
ranges, leaves it within the widened ranges. -/
theorem Prog25.key_store_wide_range (s : Prog25.SharedData K) (key : Int)
    (h : Prog25.in_range s) : Prog25.wide_range (Prog25.key_store s key).1 := by
  obtain ⟨⟨ha1, ha2⟩, ⟨hb1, hb2⟩, ⟨hs1, hs2⟩, ht⟩ := h
  unfold Prog25.key_store
  by_cases c1 : key = 119 ∨ key = 87
  · simp only [if_pos c1]
    exact ⟨⟨by dsimp only; linarith, by dsimp only; linarith⟩, ⟨by linarith, by linarith⟩,
      ⟨by linarith, by linarith⟩, ht⟩
  simp only [if_neg c1]
  by_cases c2 : key = 115 ∨ key = 83
  · simp only [if_pos c2]
    exact ⟨⟨by dsimp only; linarith, by dsimp only; linarith⟩, ⟨by linarith, by linarith⟩,
      ⟨by linarith, by linarith⟩, ht⟩
  simp only [if_neg c2]
  by_cases c3 : key = 97 ∨ key = 65
  · simp only [if_pos c3]
    exact ⟨⟨by linarith, by linarith⟩, ⟨by dsimp only; linarith, by dsimp only; linarith⟩,
      ⟨by linarith, by linarith⟩, ht⟩
  simp only [if_neg c3]
  by_cases c4 : key = 100 ∨ key = 68
  · simp only [if_pos c4]
    exact ⟨⟨by linarith, by linarith⟩, ⟨by dsimp only; linarith, by dsimp only; linarith⟩,
      ⟨by linarith, by linarith⟩, ht⟩
  simp only [if_neg c4]
  by_cases c5 : key = 43
  · simp only [if_pos c5]
    exact ⟨⟨by linarith, by linarith⟩, ⟨by linarith, by linarith⟩,
      ⟨by dsimp only; linarith, by dsimp only; linarith⟩, ht⟩
  simp only [if_neg c5]
  by_cases c6 : key = 45
  · simp only [if_pos c6]
    exact ⟨⟨by linarith, by linarith⟩, ⟨by linarith, by linarith⟩,
      ⟨by dsimp only; linarith, by dsimp only; linarith⟩, ht⟩
  simp only [if_neg c6]
  have base : ∀ t : Int, (t = 0 ∨ t = 1 ∨ t = 2 ∨ t = 3) →
      Prog25.wide_range ({ s with trajectory_type := t } : Prog25.SharedData K) := fun t ht =>
    ⟨⟨by dsimp only; linarith, by dsimp only; linarith⟩,
      ⟨by dsimp only; linarith, by dsimp only; linarith⟩,
      ⟨by dsimp only; linarith, by dsimp only; linarith⟩, ht⟩
  by_cases c7 : key = 49
  · simp only [if_pos c7]; exact base 0 (Or.inl rfl)
  simp only [if_neg c7]
  by_cases c8 : key = 50
  · simp only [if_pos c8]; exact base 1 (Or.inr (Or.inl rfl))
  simp only [if_neg c8]
  by_cases c9 : key = 51
  · simp only [if_pos c9]; exact base 2 (Or.inr (Or.inr (Or.inl rfl)))
  simp only [if_neg c9]
  by_cases c10 : key = 52
  · simp only [if_pos c10]; exact base 3 (Or.inr (Or.inr (Or.inr rfl)))
  simp only [if_neg c10]
  exact base s.trajectory_type ht

end Stores

section Race

variable {K : Type} [LinearOrderedField K] [FloorRing K]

/-- A key that is no `case` label stores nothing. -/
theorem Prog25.key_store_zero {K : Type} [LinearOrderedField K] (s : Prog25.SharedData K) :
    Prog25.key_store s 0 = (s, Prog25.WritePc.read) := by
  simp [Prog25.key_store]

/-- A step of the main thread outside the control loop, or with the loop
condition false, leaves the four configuration fields as they are. -/
theorem Prog25.step_main_in_range (st : Prog25.State K) (input : Int)
    (hc : ¬ (st.pc = Prog25.MainPc.control ∧ st.key ≠ 27 ∧ st.shared.running ≠ 0))
    (h : Prog25.in_range st.shared) :
    Prog25.in_range (Prog25.step st (Prog25.Event.main input)).shared := by
  unfold Prog25.step
  cases hpc : st.pc with
  | control =>
    simp only
    rw [if_neg (fun c => hc ⟨hpc, c⟩)]
    exact h
  | joining =>
    simp only
    split_ifs <;> exact h
  | closed => exact h

/-- A step of a worker thread does not write the shared data. -/
theorem Prog25.step_worker_shared (st : Prog25.State K) (ev : Prog25.Event) (w : Worker)
    (hw : ev.worker = some w) : (Prog25.step st ev).shared = st.shared := by
  cases ev with
  | main input => simp [Prog25.Event.worker] at hw
  | ellipses c => unfold Prog25.step; simp only; split_ifs <;> rfl
  | pixels c => unfold Prog25.step; simp only; split_ifs <;> rfl
  | triangle c => unfold Prog25.step; simp only; split_ifs <;> rfl
  | trajectory => unfold Prog25.step; simp only; split_ifs <;> rfl

/-- At the granularity of single stores, the shared data is at every instant
an in-range configuration after the first store of some `case`. -/
theorem Prog25.fine_step_inv (fs : Prog25.FineState K) (ev : Prog25.Event)
    (h : ∃ (s : Prog25.SharedData K) (key : Int), Prog25.in_range s ∧
      (fs.st.shared, fs.wpc) = Prog25.key_store s key) :
    ∃ (s : Prog25.SharedData K) (key : Int), Prog25.in_range s ∧
      ((Prog25.fine_step fs ev).st.shared, (Prog25.fine_step fs ev).wpc) =
        Prog25.key_store s key := by
  obtain ⟨s, key, hs, e⟩ := h
  have e1 : fs.st.shared = (Prog25.key_store s key).1 := congrArg Prod.fst e
  have e2 : fs.wpc = (Prog25.key_store s key).2 := congrArg Prod.snd e
  have hclamp : Prog25.in_range (Prog25.clamp_store fs.st.shared fs.wpc) := by
    rw [e1, e2, Prog25.clamp_store_key_store]
    exact Prog25.handle_key_in_range s key hs
  cases ev with
  | main input =>
    cases hw : fs.wpc with
    | read =>
      have hin : Prog25.in_range fs.st.shared := by
        rw [hw] at hclamp
        exact hclamp
      by_cases hc : fs.st.pc = Prog25.MainPc.control ∧ fs.st.key ≠ 27 ∧ fs.st.shared.running ≠ 0
      · refine ⟨fs.st.shared, input, hin, ?_⟩
        simp only [Prog25.fine_step, hw, if_pos hc]
      · refine ⟨_, 0, Prog25.step_main_in_range fs.st input hc hin, ?_⟩
        simp only [Prog25.fine_step, hw, if_neg hc, Prog25.key_store_zero]
    | clamp_a_max =>
      rw [hw] at hclamp
      exact ⟨_, 0, hclamp, by simp only [Prog25.fine_step, hw, Prog25.key_store_zero]⟩
    | clamp_a_min =>
      rw [hw] at hclamp
      exact ⟨_, 0, hclamp, by simp only [Prog25.fine_step, hw, Prog25.key_store_zero]⟩
    | clamp_b_max =>
      rw [hw] at hclamp
      exact ⟨_, 0, hclamp, by simp only [Prog25.fine_step, hw, Prog25.key_store_zero]⟩
    | clamp_b_min =>
      rw [hw] at hclamp
      exact ⟨_, 0, hclamp, by simp only [Prog25.fine_step, hw, Prog25.key_store_zero]⟩
    | clamp_speed_max =>
      rw [hw] at hclamp
      exact ⟨_, 0, hclamp, by simp only [Prog25.fine_step, hw, Prog25.key_store_zero]⟩
    | clamp_speed_min =>
      rw [hw] at hclamp
      exact ⟨_, 0, hclamp, by simp only [Prog25.fine_step, hw, Prog25.key_store_zero]⟩
  | ellipses c =>
    refine ⟨s, key, hs, ?_⟩
    simp only [Prog25.fine_step, Prog25.step_worker_shared fs.st (Prog25.Event.ellipses c) _ rfl]
    exact e
  | pixels c =>
    refine ⟨s, key, hs, ?_⟩
    simp only [Prog25.fine_step, Prog25.step_worker_shared fs.st (Prog25.Event.pixels c) _ rfl]
    exact e
  | triangle c =>
    refine ⟨s, key, hs, ?_⟩
    simp only [Prog25.fine_step, Prog25.step_worker_shared fs.st (Prog25.Event.triangle c) _ rfl]
    exact e
  | trajectory =>
    refine ⟨s, key, hs, ?_⟩
    simp only [Prog25.fine_step, Prog25.step_worker_shared fs.st Prog25.Event.trajectory _ rfl]
    exact e

/-- The invariant of single stores holds along every run. -/
theorem Prog25.fine_run_inv (evs : List Prog25.Event) (fs : Prog25.FineState K)
    (h : ∃ (s : Prog25.SharedData K) (key : Int), Prog25.in_range s ∧
      (fs.st.shared, fs.wpc) = Prog25.key_store s key) :
    ∃ (s : Prog25.SharedData K) (key : Int), Prog25.in_range s ∧
      ((Prog25.fine_run fs evs).st.shared, (Prog25.fine_run fs evs).wpc) =
        Prog25.key_store s key := by
  induction evs generalizing fs with
  | nil => exact h
  | cons ev evs ih => exact ih _ (Prog25.fine_step_inv fs ev h)

/-- One pass of the control loop at the granularity of single stores (the
first store, then the clamp if the `case` has one) is the pass of `step`. -/
theorem Prog25.fine_step_refines_step (fs : Prog25.FineState K) (input next : Int)
    (hr : fs.wpc = Prog25.WritePc.read) :
    (if (Prog25.fine_step fs (Prog25.Event.main input)).wpc = Prog25.WritePc.read then
        Prog25.fine_step fs (Prog25.Event.main input)
      else Prog25.fine_step (Prog25.fine_step fs (Prog25.Event.main input))
        (Prog25.Event.main next)) =
      { st := Prog25.step fs.st (Prog25.Event.main input), wpc := Prog25.WritePc.read } := by
  by_cases hc : fs.st.pc = Prog25.MainPc.control ∧ fs.st.key ≠ 27 ∧ fs.st.shared.running ≠ 0
  · have hstep : Prog25.step fs.st (Prog25.Event.main input) =
        { fs.st with key := input, shared := Prog25.handle_key fs.st.shared input } := by
      unfold Prog25.step
      simp only [hc.1]
      rw [if_pos hc.2]
    have h1 : Prog25.fine_step fs (Prog25.Event.main input) =
        { st := { fs.st with key := input, shared := (Prog25.key_store fs.st.shared input).1 },
          wpc := (Prog25.key_store fs.st.shared input).2 } := by
      simp only [Prog25.fine_step, hr, if_pos hc]
    have hk := Prog25.clamp_store_key_store fs.st.shared input
    rw [h1, hstep]
    cases hw : (Prog25.key_store fs.st.shared input).2 <;> rw [hw] at hk
    · simp only [Prog25.clamp_store] at hk
      simp only [if_true, hk]
    all_goals simp only [Prog25.fine_step, reduceCtorEq, if_false, hk]
  · have h1 : Prog25.fine_step fs (Prog25.Event.main input) =
        { st := Prog25.step fs.st (Prog25.Event.main input), wpc := Prog25.WritePc.read } := by
      cases fs with
      | mk st wpc =>
        simp only at hr hc
        subst hr
        simp only [Prog25.fine_step, if_neg hc]
    rw [h1, if_pos rfl]

/-- The Circle position at phase zero, for any radius. -/
theorem Prog25.move_target_circle_zero (a b speed : K) (running : Int) (n : ℕ)
    (h0 : (n : K) ≤ a + 300) (h1 : a + 300 < n + 1) :
    Prog25.move_target ⟨a, b, speed, 0, running⟩ 0 = ((n : Int), 200) := by
  have h200 : to_int (200 : K) = 200 := by
    have := to_int_eq_of_mem (200 : K) 200 (by norm_num) (by norm_num)
    simpa using this
  unfold Prog25.move_target Prog25.trajectory_xy
  simp only [if_true, Prog25.my_cos_zero, Prog25.my_sin_zero, mul_one, mul_zero, zero_add]
  rw [h200, to_int_eq_of_mem (a + 300) n h0 h1]

/-- Claim C12, counterexample. From the defaults, eight `w` keys bring
`radius_a` to 100; the first store of the ninth (`shared.a += 5.0f`) leaves
`shared.a = 105` with the clamp still to run. The trajectory worker scheduled at
this instant reads 105, a value outside `[20, 100]` that lies after the update
and before the clamp, and moves the marker to `(405, 200)`; only the next step
of the main thread stores the bound 100. -/
theorem worker_reads_unclamped_radius :
    (Prog25.fine_run (Prog25.fine_init : Prog25.FineState ℚ)
        (List.replicate 17 (Prog25.Event.main 119))).st.shared.a = 105 ∧
    (Prog25.fine_run (Prog25.fine_init : Prog25.FineState ℚ)
        (List.replicate 17 (Prog25.Event.main 119))).wpc = Prog25.WritePc.clamp_a_max ∧
    ¬ Prog25.in_range (Prog25.fine_run (Prog25.fine_init : Prog25.FineState ℚ)
        (List.replicate 17 (Prog25.Event.main 119))).st.shared ∧
    (Prog25.fine_run (Prog25.fine_init : Prog25.FineState ℚ)
        (List.replicate 17 (Prog25.Event.main 119) ++ [Prog25.Event.trajectory])).st.calls =
      [DrawCall.MoveTo 405 200 Handle.moving_obj] ∧
    (Prog25.fine_run (Prog25.fine_init : Prog25.FineState ℚ)
        (List.replicate 17 (Prog25.Event.main 119) ++
          [Prog25.Event.trajectory, Prog25.Event.main 0])).st.shared.a = 100 := by
  have hst : Prog25.fine_run (Prog25.fine_init : Prog25.FineState ℚ)
      (List.replicate 17 (Prog25.Event.main 119)) =
      { st := { shared := ⟨105, 40, 2 / 100, 0, 1⟩, key := 119, pc := Prog25.MainPc.control,
                phi := 0, ellipses_live := true, pixels_live := true, triangle_live := true,
                trajectory_live := true, calls := [] },
        wpc := Prog25.WritePc.clamp_a_max } := by
    simp only [Prog25.fine_run, List.replicate, List.foldl, Prog25.fine_init, Prog25.init_state,
      Prog25.init_shared, Prog25.fine_step, Prog25.key_store, Prog25.clamp_store]
    norm_num
  have hmt : Prog25.move_target (⟨105, 40, 2 / 100, 0, 1⟩ : Prog25.SharedData ℚ) 0 = (405, 200) := by
    have := Prog25.move_target_circle_zero (105 : ℚ) 40 (2 / 100) 1 405 (by norm_num) (by norm_num)
    simpa using this
  refine ⟨?_, ?_, ?_, ?_, ?_⟩
  · rw [hst]
  · rw [hst]
  · rw [hst]
    intro h
    have := h.1.2
    norm_num at this
  · unfold Prog25.fine_run at hst ⊢
    rw [List.foldl_append, hst]
    simp only [List.foldl, Prog25.fine_step, Prog25.step, Prog25.move_trajectory_body, hmt]
    simp
  · unfold Prog25.fine_run at hst ⊢
    rw [List.foldl_append, hst]
    simp only [List.foldl, Prog25.fine_step, Prog25.step, Prog25.clamp_store]
    norm_num


/-- Claim C12, amended. Under every interleaving of the single stores of the
control loop with the iterations of the workers, the shared configuration a
worker can read at any instant satisfies the clamp ranges widened by one
increment, `15 ≤ a ≤ 105`, `5 ≤ b ≤ 85`, `0 ≤ speed ≤ 0.105`, with
`trajectory_type` one of `0, 1, 2, 3`, and it satisfies the clamp ranges
themselves at every instant at which the main thread is not between the update
of a field and its clamp; the two stores of a `case` together are the `case`
of the key switch. -/
theorem shared_config_within_widened_ranges (evs : List Prog25.Event) :
    Prog25.wide_range (Prog25.fine_run (Prog25.fine_init : Prog25.FineState K) evs).st.shared ∧
    ((Prog25.fine_run (Prog25.fine_init : Prog25.FineState K) evs).wpc = Prog25.WritePc.read →
      Prog25.in_range (Prog25.fine_run (Prog25.fine_init : Prog25.FineState K) evs).st.shared) ∧
    (∀ (s : Prog25.SharedData K) (key : Int),
      Prog25.clamp_store (Prog25.key_store s key).1 (Prog25.key_store s key).2 =
        Prog25.handle_key s key) := by
  have h0 : ∃ (s : Prog25.SharedData K) (key : Int), Prog25.in_range s ∧
      ((Prog25.fine_init : Prog25.FineState K).st.shared,
        (Prog25.fine_init : Prog25.FineState K).wpc) = Prog25.key_store s key := by
    refine ⟨Prog25.init_shared, 0, ?_, ?_⟩
    · simp only [Prog25.in_range, Prog25.init_shared]
      norm_num
    · rw [Prog25.key_store_zero]
      rfl
  obtain ⟨s, key, hs, e⟩ := Prog25.fine_run_inv evs Prog25.fine_init h0
  have e1 := congrArg Prod.fst e
  have e2 := congrArg Prod.snd e
  simp only at e1 e2
  refine ⟨?_, ?_, Prog25.clamp_store_key_store⟩
  · rw [e1]
    exact Prog25.key_store_wide_range s key hs
  · intro hr
    have hk := Prog25.clamp_store_key_store s key
    rw [← e1, ← e2, hr] at hk
    simp only [Prog25.clamp_store] at hk
    rw [hk]
    exact Prog25.handle_key_in_range s key hs

end Race

section Binary32

/-- A rational within less than a half of an integer rounds to it. -/
theorem round_even_of_near (z : ℚ) (n : ℤ) (h : |z - n| < 1 / 2) : round_even z = n := by
  obtain ⟨h1, h2⟩ := abs_lt.mp h
  unfold round_even
  by_cases hz : (n : ℚ) ≤ z
  · have hf : ⌊z⌋ = n := Int.floor_eq_iff.mpr ⟨hz, by linarith⟩
    rw [hf, if_pos (by linarith)]
  · have hz' : z < n := not_le.mp hz
    have hf : ⌊z⌋ = n - 1 := Int.floor_eq_iff.mpr ⟨by push_cast; linarith, by push_cast; linarith⟩
    rw [hf]
    push_cast
    rw [if_neg (by linarith), if_pos (by linarith)]
    ring

/-- The binary32 exponent of a rational between two consecutive powers of two
in the normal range. -/
theorem f32_exponent_eq (q : ℚ) (e : ℤ) (he : -126 ≤ e) (h1 : (2 : ℚ) ^ e ≤ |q|)
    (h2 : |q| < (2 : ℚ) ^ (e + 1)) : f32_exponent q = e := by
  have hpos : 0 < |q| := lt_of_lt_of_le (zpow_pos (by norm_num) e) h1
  have hl : Int.log 2 |q| = e := by
    have a := (Int.zpow_le_iff_le_log (b := 2) (by norm_num) hpos).mp (by exact_mod_cast h1)
    have b := (Int.lt_zpow_iff_log_lt (b := 2) (by norm_num) hpos).mp (by exact_mod_cast h2)
    omega
  unfold f32_exponent
  rw [hl]
  exact max_eq_left he

/-- The binary32 rounding of a rational whose exponent is known. -/
theorem f32_round_eq (q : ℚ) (e : ℤ) (he : -126 ≤ e) (h1 : (2 : ℚ) ^ e ≤ |q|)
    (h2 : |q| < (2 : ℚ) ^ (e + 1)) :
    f32_round q = round_even (q / 2 ^ (e - 23)) * 2 ^ (e - 23) := by
  unfold f32_round
  rw [f32_exponent_eq q e he h1 h2]

/-- Zero is a binary32 number. -/
theorem f32_round_zero : f32_round 0 = 0 := by
  unfold f32_round
  rw [zero_div, round_even_of_near 0 0 (by norm_num)]
  simp

/-- The literal `6.283185307f` is `13176795 / 2 ^ 21`. -/
theorem Prog25.twoPi_f32_eq : Prog25.twoPi_f32 = 13176795 / 2097152 := by
  unfold Prog25.twoPi_f32
  rw [f32_round_eq _ 2 (by norm_num) (by norm_num [abs_of_pos]) (by norm_num [abs_of_pos]),
    round_even_of_near _ 13176795 (by norm_num [abs_lt])]
  norm_num

/-- The first loop leaves a nonnegative argument as it is. -/
theorem Prog25.reduce_up_f32_of_nonneg (fuel : ℕ) (x : ℚ) (h : 0 ≤ x) :
    Prog25.reduce_up_f32 fuel x = some x := by
  cases fuel with
  | zero => rw [Prog25.reduce_up_f32, if_neg (not_lt.mpr h)]
  | succ n => rw [Prog25.reduce_up_f32, if_neg (not_lt.mpr h)]

/-- The second loop leaves an argument below the constant as it is. -/
theorem Prog25.reduce_down_f32_of_lt (fuel : ℕ) (x : ℚ) (h : x < Prog25.twoPi_f32) :
    Prog25.reduce_down_f32 fuel x = some x := by
  cases fuel with
  | zero => rw [Prog25.reduce_down_f32, if_neg (not_le.mpr h)]
  | succ n => rw [Prog25.reduce_down_f32, if_neg (not_le.mpr h)]

/-- One is a binary32 number. -/
theorem f32_round_one : f32_round 1 = 1 := by
  rw [f32_round_eq _ 0 (by norm_num) (by norm_num) (by norm_num),
    round_even_of_near _ 8388608 (by norm_num [abs_lt])]
  norm_num

/-- The value `200` is a binary32 number. -/
theorem f32_round_200 : f32_round 200 = 200 := by
  rw [f32_round_eq _ 7 (by norm_num) (by norm_num [abs_of_pos]) (by norm_num [abs_of_pos]),
    round_even_of_near _ 13107200 (by norm_num [abs_lt])]
  norm_num

/-- Every integer in `[256, 512)` is a binary32 number. -/
theorem f32_round_int_of_mem (k : ℕ) (h1 : 256 ≤ k) (h2 : k < 512) :
    f32_round (k : ℚ) = k := by
  have hk1 : (256 : ℚ) ≤ k := by exact_mod_cast h1
  have hk2 : (k : ℚ) < 512 := by exact_mod_cast h2
  have habs : |(k : ℚ)| = k := abs_of_nonneg (by linarith)
  have a1 : (2 : ℚ) ^ (8 : ℤ) ≤ |(k : ℚ)| := by rw [habs]; norm_num; exact_mod_cast h1
  have a2 : |(k : ℚ)| < (2 : ℚ) ^ ((8 : ℤ) + 1) := by rw [habs]; norm_num; exact_mod_cast h2
  have hz : (k : ℚ) / 2 ^ ((8 : ℤ) - 23) = (((k * 32768 : ℕ) : ℤ) : ℚ) := by
    push_cast
    norm_num
    ring
  have hn : round_even ((((k * 32768 : ℕ) : ℤ) : ℚ)) = ((k * 32768 : ℕ) : ℤ) :=
    round_even_of_near _ _ (by simp)
  rw [f32_round_eq _ 8 (by norm_num) a1 a2, hz, hn]
  push_cast
  norm_num
  ring

/-- In binary32 arithmetic `my_cos(0.0f)` is `1.0f`, after no pass through the
reduction loops. -/
theorem Prog25.my_cos_f32_zero (fuel : ℕ) : Prog25.my_cos_f32 fuel 0 = some 1 := by
  have hr : Prog25.reduce_f32 fuel 0 = some 0 := by
    unfold Prog25.reduce_f32
    rw [Prog25.reduce_up_f32_of_nonneg fuel 0 le_rfl]
    exact Prog25.reduce_down_f32_of_lt fuel 0 (by rw [Prog25.twoPi_f32_eq]; norm_num)
  unfold Prog25.my_cos_f32
  rw [hr]
  simp only [Option.map_some', mul_zero, zero_div, f32_round_zero, sub_zero, add_zero,
    f32_round_one]

/-- In binary32 arithmetic `my_sin(0.0f)` is `0.0f`, after no pass through the
reduction loops. -/
theorem Prog25.my_sin_f32_zero (fuel : ℕ) : Prog25.my_sin_f32 fuel 0 = some 0 := by
  have hr : Prog25.reduce_f32 fuel 0 = some 0 := by
    unfold Prog25.reduce_f32
    rw [Prog25.reduce_up_f32_of_nonneg fuel 0 le_rfl]
    exact Prog25.reduce_down_f32_of_lt fuel 0 (by rw [Prog25.twoPi_f32_eq]; norm_num)
  unfold Prog25.my_sin_f32
  rw [hr]
  simp only [Option.map_some', mul_zero, zero_div, f32_round_zero, sub_zero, add_zero]

/-- Claim C6 (Circle at phase zero), in binary32 arithmetic. For every float
`radius_a` in `[20, 100]`, with the Circle trajectory and `phi = 0`, `my_cos(0) = 1` and `my_sin(0) = 0` exactly, the
trajectory step computes `x = 300 + radius_a` (the float sum) and `y = 200`,
and `MoveTo` is called with `((int)(300 + radius_a), 200)`; for every radius
the key switch produces (an integer from 20 to 100) the sum is exact, and the
call is `MoveTo(300 + radius_a, 200)`. -/
theorem circle_at_phase_zero_f32 (a b speed : ℚ) (running : Int) (fuel : ℕ)
    (ha : f32_round a = a) (_h20 : 20 ≤ a) (_h100 : a ≤ 100) :
    (Prog25.my_cos_f32 fuel 0 = some 1 ∧ Prog25.my_sin_f32 fuel 0 = some 0) ∧
    Prog25.trajectory_xy_f32 fuel ⟨a, b, speed, TrajectoryKind.Circle.code, running⟩ 0 =
      some (f32_round (a + 300), 200) ∧
    Prog25.move_target_f32 fuel ⟨a, b, speed, TrajectoryKind.Circle.code, running⟩ 0 =
      some (to_int (f32_round (a + 300)), 200) ∧
    (∀ n : ℕ, a = n → 20 ≤ n → n ≤ 100 →
      Prog25.trajectory_xy_f32 fuel ⟨a, b, speed, TrajectoryKind.Circle.code, running⟩ 0 =
        some (300 + a, 200) ∧
      Prog25.move_target_f32 fuel ⟨a, b, speed, TrajectoryKind.Circle.code, running⟩ 0 =
        some (300 + (n : ℤ), 200)) := by
  have h200 : to_int (200 : ℚ) = 200 := by
    have := to_int_eq_of_mem (200 : ℚ) 200 (by norm_num) (by norm_num)
    simpa using this
  have hxy : Prog25.trajectory_xy_f32 fuel ⟨a, b, speed, TrajectoryKind.Circle.code, running⟩ 0 =
      some (f32_round (a + 300), 200) := by
    unfold Prog25.trajectory_xy_f32
    simp only [TrajectoryKind.code, if_true, Prog25.my_cos_f32_zero, Prog25.my_sin_f32_zero,
      Option.bind_eq_bind, Option.some_bind, mul_one, mul_zero, ha, f32_round_zero, zero_add,
      f32_round_200]
  have hmt : Prog25.move_target_f32 fuel ⟨a, b, speed, TrajectoryKind.Circle.code, running⟩ 0 =
      some (to_int (f32_round (a + 300)), 200) := by
    unfold Prog25.move_target_f32
    rw [hxy]
    simp only [Option.map_some', h200]
  refine ⟨⟨Prog25.my_cos_f32_zero fuel, Prog25.my_sin_f32_zero fuel⟩, hxy, hmt, ?_⟩
  intro n hn h20 h100
  have hsum : f32_round (a + 300) = 300 + a := by
    have := f32_round_int_of_mem (n + 300) (by omega) (by omega)
    push_cast at this
    rw [hn, this]
    ring
  rw [hxy, hmt, hsum]
  refine ⟨rfl, ?_⟩
  have := to_int_eq_of_mem (300 + a) (300 + n) (by rw [hn]; push_cast; exact le_rfl)
    (by rw [hn]; push_cast; linarith)
  rw [this]
  push_cast
  rfl

/-- Witness for claim C6: at the default radius 60 the call is
`MoveTo(360, 200)`; at the float `99.99999f = 13107199 / 2 ^ 17` the float sum
`300 + radius_a` is `400`, so the call is `MoveTo(400, 200)`, where the exact
sum would truncate to 399. -/
theorem circle_at_phase_zero_f32_witness :
    (f32_round 60 = 60 ∧
      Prog25.move_target_f32 5 ⟨60, 40, 2 / 100, TrajectoryKind.Circle.code, 1⟩ 0 =
        some (360, 200)) ∧
    ((f32_round (13107199 / 131072) = 13107199 / 131072 ∧
        (20 : ℚ) ≤ 13107199 / 131072 ∧ (13107199 / 131072 : ℚ) ≤ 100) ∧
      Prog25.move_target_f32 5
          ⟨13107199 / 131072, 40, 2 / 100, TrajectoryKind.Circle.code, 1⟩ 0 =
        some (400, 200) ∧
      to_int ((300 : ℚ) + 13107199 / 131072) = 399) := by
  have h60 : f32_round 60 = 60 := by
    rw [f32_round_eq _ 5 (by norm_num) (by norm_num [abs_of_pos]) (by norm_num [abs_of_pos]),
      round_even_of_near _ 15728640 (by norm_num [abs_lt])]
    norm_num
  have ha : f32_round (13107199 / 131072) = 13107199 / 131072 := by
    rw [f32_round_eq _ 6 (by norm_num) (by norm_num [abs_of_pos]) (by norm_num [abs_of_pos]),
      round_even_of_near _ 13107199 (by norm_num [abs_lt])]
    norm_num
  have hsum : f32_round (13107199 / 131072 + 300) = 400 := by
    rw [f32_round_eq _ 8 (by norm_num) (by norm_num [abs_of_pos]) (by norm_num [abs_of_pos]),
      round_even_of_near _ 13107200 (by norm_num [abs_lt])]
    norm_num
  have h400 : to_int (400 : ℚ) = 400 := by
    have := to_int_eq_of_mem (400 : ℚ) 400 (by norm_num) (by norm_num)
    simpa using this
  have h399 : to_int ((300 : ℚ) + 13107199 / 131072) = 399 := by
    have := to_int_eq_of_mem ((300 : ℚ) + 13107199 / 131072) 399 (by norm_num) (by norm_num)
    simpa using this
  refine ⟨⟨h60, ?_⟩, ⟨ha, by norm_num, by norm_num⟩, ?_, h399⟩
  · have := ((circle_at_phase_zero_f32 60 40 (2 / 100) 1 5 h60 (by norm_num)
      (by norm_num)).2.2.2 60 (by norm_num) (by norm_num) (by norm_num)).2
    simpa using this
  · have := (circle_at_phase_zero_f32 (13107199 / 131072) 40 (2 / 100) 1 5 ha (by norm_num)
      (by norm_num)).2.2.1
    rw [hsum, h400] at this
    exact this

end Binary32
